import Mathlib

set_option maxRecDepth 100000

/-!
Verification of the lite_db storage engine (Bitcask-style append-only log
with an in-memory index).  The definitions below are a shallow embedding of
the Rust sources: bytes are natural numbers (well-formed bytes are `< 256`,
Rust `u8`), byte strings are `List Nat`, machine integers are `Nat` with
explicit `% 2^w` where truncation matters, fallible code returns `Except`
and Rust panics are modelled by a dedicated constructor.
-/

/-- Model of a positioned read of `n` bytes into a zero-initialised buffer
(`FileIo::read` uses `read_at`, which fills as many bytes as the file
provides; the tail of the zeroed buffer is left untouched and the byte
count returned by `read_at` is ignored by the callers in `file_db.rs`). -/
def takePad (n : Nat) (l : List Nat) : List Nat :=
  l.take n ++ List.replicate (n - l.length) 0

/-- Base-128 varint encoding, as produced by prost's `encode_varint` /
`encode_length_delimiter` (low 7 bits first, continuation bit `0x80`).
The recursion is bounded by a fuel of 10 bytes, which is exact for every
`u64` (the values the Rust code can pass); the fuel-exhaustion branch is
unreachable for `n < 2^64`. -/
def encode_varint_fuel : Nat → Nat → List Nat
  | 0, n => [n % 0x80]
  | fuel + 1, n =>
    if n < 0x80 then [n]
    else (n % 0x80 + 0x80) :: encode_varint_fuel fuel (n >>> 7)

/-- Varint encoding of a `usize` value. -/
def encode_varint (n : Nat) : List Nat := encode_varint_fuel 10 n

/-- Length of the varint encoding of `n`; prost's `length_delimiter_len`
computes this arithmetically, which agrees with the encoded length. -/
def length_delimiter_len (n : Nat) : Nat := (encode_varint n).length

/-- Model of prost's `decode_varint` loop over a byte list: accumulates the
low 7 bits of each byte at the current shift, stops at the first byte
without the continuation bit, and fails (`None`) when the buffer runs out
or the varint does not fit in a `u64` (at most 10 bytes, the tenth at most
`1`).  Returns the decoded value together with the remaining bytes. -/
def decode_varint_loop : List Nat → Nat → Nat → Option (Nat × List Nat)
  | [], _, _ => none
  | b :: rest, count, acc =>
    if b < 0x80 then
      if count = 9 ∧ 1 < b then none
      else some (acc ||| (b <<< (7 * count)), rest)
    else if 9 ≤ count then none
    else decode_varint_loop rest (count + 1) (acc ||| ((b &&& 0x7f) <<< (7 * count)))

/-- prost `decode_varint` / `decode_length_delimiter` over a byte list. -/
def decode_varint (l : List Nat) : Option (Nat × List Nat) :=
  decode_varint_loop l 0 0

/-- Big-endian 4-byte encoding of a `u32` (`BufMut::put_u32`). -/
def put_u32_be (n : Nat) : List Nat :=
  [n / 2 ^ 24 % 256, n / 2 ^ 16 % 256, n / 2 ^ 8 % 256, n % 256]

/-- Big-endian recombination of the first four bytes (`Buf::get_u32`). -/
def get_u32_be : List Nat → Nat
  | b0 :: b1 :: b2 :: b3 :: _ => b0 * 2 ^ 24 + b1 * 2 ^ 16 + b2 * 2 ^ 8 + b3
  | _ => 0

/-- The CRC-32 (IEEE) reflected polynomial used by `crc32fast`. -/
def crc32_poly : Nat := 0xEDB88320

/-- One bit-step of the reflected CRC-32 computation. -/
def crc32_step (c : Nat) : Nat :=
  if c % 2 = 1 then (c >>> 1) ^^^ crc32_poly else c >>> 1

/-- Eight bit-steps (one input byte). -/
def crc32_rounds : Nat → Nat → Nat
  | 0, c => c
  | k + 1, c => crc32_rounds k (crc32_step c)

/-- Absorb one byte into the running CRC. -/
def crc32_update (c b : Nat) : Nat := crc32_rounds 8 (c ^^^ b)

/-- IEEE CRC-32 of a byte list, as computed by `crc32fast::Hasher`
(initial value `0xFFFFFFFF`, final xor `0xFFFFFFFF`). -/
def crc32 (l : List Nat) : Nat :=
  (l.foldl crc32_update 0xFFFFFFFF) ^^^ 0xFFFFFFFF

example : crc32 [] = 0 := by decide
-- "123456789" has CRC-32 0xCBF43926 (the standard check value)
example : crc32 [49, 50, 51, 52, 53, 54, 55, 56, 57] = 0xCBF43926 := by decide
example : decode_varint (encode_varint 300 ++ [7]) = some (300, [7]) := by decide
example : takePad 4 [9] = [9, 0, 0, 0] := by decide
example : get_u32_be (put_u32_be 3756865478) = 3756865478 := by decide

/-- Record kinds of `LogDbType` (`log_db.rs`): NORMAL = 1, DELETED = 2,
TXNFINISHED = 3. -/
inductive LogDbType
  | NORMAL
  | DELETED
  | TXNFINISHED
deriving DecidableEq

/-- The discriminant byte written for a record kind (`rec_type as u8`). -/
def LogDbType.toU8 : LogDbType → Nat
  | .NORMAL => 1
  | .DELETED => 2
  | .TXNFINISHED => 3

/-- `LogDbType::from_u8`; the catch-all arm panics, modelled by `none`. -/
def LogDbType.from_u8 : Nat → Option LogDbType
  | 1 => some .NORMAL
  | 2 => some .DELETED
  | 3 => some .TXNFINISHED
  | _ => none

/-- A log record (`LogDb` in `db/log_db.rs`): key bytes, value bytes and a
record kind.  The key stored on disk is the sequence-prefixed key. -/
structure LogDb where
  key : List Nat
  value : List Nat
  rec_type : LogDbType
deriving DecidableEq

/-- The CRC-covered byte prefix built by `encode_and_get_crc`: kind byte,
varint key length, varint value length, key bytes, value bytes. -/
def LogDb.enc_body (r : LogDb) : List Nat :=
  r.rec_type.toU8 :: (encode_varint r.key.length ++ encode_varint r.value.length
    ++ r.key ++ r.value)

/-- `LogRecord::get_crc`: CRC-32 over the encoded prefix. -/
def LogDb.get_crc (r : LogDb) : Nat := crc32 r.enc_body

/-- `LogRecord::encode`: the CRC-covered prefix followed by the CRC trailer
in big-endian byte order. -/
def LogDb.encode (r : LogDb) : List Nat := r.enc_body ++ put_u32_be r.get_crc

/-- `LogRecord::encoded_length`. -/
def LogDb.encoded_length (r : LogDb) : Nat :=
  1 + length_delimiter_len r.key.length + length_delimiter_len r.value.length
    + r.key.length + r.value.length + 4

/-- `max_log_db_header_size`: kind byte plus two maximal `u32` varints. -/
def max_log_db_header_size : Nat := 1 + length_delimiter_len (2 ^ 32 - 1) * 2

/-- Error kinds of `ErrDb` (`db/err.rs`).  The `IoErr(io::Error)` payloads
constructed by the engine are specialised to the two kinds it creates and
compares (`new_io_eof`, `new_io_file_not_find`).  `Panic` is not a variant
of the Rust enum: it models a Rust panic (a failed `unwrap`/`expect`),
which aborts instead of returning. -/
inductive ErrDb
  | NotFindKey
  | InvalidParameter
  | InvalidBatch
  | Err (msg : String)
  | InvalidLogDbCrc
  | IoEof
  | IoFileNotFind
  | Panic
deriving DecidableEq

deriving instance DecidableEq for Except

/-- Result of `FileDb::read_log_db`: the decoded record and the total
number of bytes it occupies on disk. -/
structure ReadLogDb where
  log_db : LogDb
  size : Nat
deriving DecidableEq

/-- `FileDb::read_log_db` over the byte contents of one file: read an
11-byte header buffer at `offset` (zero-padded past end of file, the StdIo
behaviour used at recovery and on the read path), parse the kind byte and
the two length varints, report EOF when both parsed sizes are zero,
otherwise read key, value and CRC trailer, recompute the CRC and compare
with the stored one. -/
def read_log_db (file : List Nat) (offset : Nat) : Except ErrDb ReadLogDb :=
  let header_buf := takePad max_log_db_header_size (file.drop offset)
  match header_buf with
  | [] => .error .Panic
  | rec_type_byte :: after_type =>
    match decode_varint after_type with
    | none => .error .Panic
    | some (key_size, after_key_size) =>
      match decode_varint after_key_size with
      | none => .error .Panic
      | some (value_size, _) =>
        if key_size = 0 ∧ value_size = 0 then .error .IoEof
        else
          let actual_header_size :=
            length_delimiter_len key_size + length_delimiter_len value_size + 1
          let kv_buf := takePad (key_size + value_size + 4)
            (file.drop (offset + actual_header_size))
          match LogDbType.from_u8 rec_type_byte with
          | none => .error .Panic
          | some t =>
            let log_db : LogDb :=
              ⟨kv_buf.take key_size, (kv_buf.drop key_size).take value_size, t⟩
            if get_u32_be (kv_buf.drop (key_size + value_size)) ≠ log_db.get_crc then
              .error .InvalidLogDbCrc
            else
              .ok ⟨log_db, actual_header_size + key_size + value_size + 4⟩

/-- Sequence number used for non-transactional records. -/
def NON_TRANSACTION_SEQ_NO : Nat := 0

/-- `log_db_key_with_seq`: prefix a logical key with a varint sequence
number. -/
def log_db_key_with_seq (key : List Nat) (seq_no : Nat) : List Nat :=
  encode_varint seq_no ++ key

/-- `parse_log_db_key`: split a stored key into logical key and sequence
number; the source unwraps the varint decode, so a malformed prefix panics
(`none`). -/
def parse_log_db_key (key : List Nat) : Option (List Nat × Nat) :=
  match decode_varint key with
  | none => none
  | some (seq_no, rest) => some (rest, seq_no)

-- The three CRC vectors asserted by the source's own test
-- (log_db.rs, test_log_record_encode_and_crc); "name" / "bitcask-rs".
example :
    LogDb.get_crc ⟨[110, 97, 109, 101],
      [98, 105, 116, 99, 97, 115, 107, 45, 114, 115], .NORMAL⟩ = 1020360578 := by
  decide
example :
    read_log_db (LogDb.encode ⟨[110, 97, 109, 101],
      [98, 105, 116, 99, 97, 115, 107, 45, 114, 115], .NORMAL⟩) 0 =
    .ok ⟨⟨[110, 97, 109, 101],
      [98, 105, 116, 99, 97, 115, 107, 45, 114, 115], .NORMAL⟩, 21⟩ := by
  decide
example : parse_log_db_key (log_db_key_with_seq [5, 6] 300) = some ([5, 6], 300) := by
  decide
example : read_log_db (LogDb.encode ⟨[], [], .NORMAL⟩) 0 = .error .IoEof := by decide

/-! Helper lemmas about the byte-level primitives. -/

theorem lor_shift_eq_add {a b k : Nat} (h : a < 2 ^ k) :
    a ||| (b <<< k) = a + b * 2 ^ k := by
  rw [Nat.shiftLeft_eq, Nat.lor_comm, Nat.mul_comm b (2 ^ k),
    ← Nat.mul_add_lt_is_or h]
  omega

theorem nat_xor_lt_two_pow {a b n : Nat} (ha : a < 2 ^ n) (hb : b < 2 ^ n) :
    a ^^^ b < 2 ^ n :=
  Nat.bitwise_lt ha hb

theorem encode_varint_fuel_ne_nil (fuel n : Nat) : encode_varint_fuel fuel n ≠ [] := by
  cases fuel with
  | zero => simp [encode_varint_fuel]
  | succ fuel =>
    simp only [encode_varint_fuel]
    split <;> simp

theorem encode_varint_fuel_length (fuel k n : Nat) (hk : 1 ≤ k)
    (hn : n < 2 ^ (7 * k)) : (encode_varint_fuel fuel n).length ≤ k := by
  induction fuel generalizing k n with
  | zero => simpa [encode_varint_fuel] using hk
  | succ fuel ih =>
    simp only [encode_varint_fuel]
    split
    · simpa using hk
    · rename_i hge
      have hk2 : 2 ≤ k := by
        by_contra hlt
        have : k = 1 := by omega
        subst this
        omega
      have hrec : n >>> 7 < 2 ^ (7 * (k - 1)) := by
        rw [Nat.shiftRight_eq_div_pow]
        have : 7 * k = 7 * (k - 1) + 7 := by omega
        rw [this, Nat.pow_add] at hn
        exact Nat.div_lt_of_lt_mul (by omega)
      have := ih (k - 1) (n >>> 7) (by omega) hrec
      simp only [List.length_cons]
      omega

theorem encode_varint_length_le {k n : Nat} (hk : 1 ≤ k) (hn : n < 2 ^ (7 * k)) :
    (encode_varint n).length ≤ k :=
  encode_varint_fuel_length 10 k n hk hn

theorem encode_varint_fuel_bytes_lt (fuel n : Nat) :
    ∀ b ∈ encode_varint_fuel fuel n, b < 256 := by
  induction fuel generalizing n with
  | zero =>
    intro b hb
    simp only [encode_varint_fuel, List.mem_singleton] at hb
    omega
  | succ fuel ih =>
    intro b hb
    simp only [encode_varint_fuel] at hb
    split at hb
    · simp only [List.mem_singleton] at hb; omega
    · simp only [List.mem_cons] at hb
      rcases hb with h | h
      · omega
      · exact ih _ b h

theorem encode_varint_bytes_lt (n : Nat) : ∀ b ∈ encode_varint n, b < 256 :=
  encode_varint_fuel_bytes_lt 10 n

theorem decode_varint_loop_encode (fuel : Nat) :
    ∀ count acc n rest, fuel + count = 10 → n < 2 ^ (64 - 7 * count) →
    acc < 2 ^ (7 * count) →
    decode_varint_loop (encode_varint_fuel fuel n ++ rest) count acc =
      some (acc + n * 2 ^ (7 * count), rest) := by
  induction fuel with
  | zero =>
    intro count acc n rest hc hn _
    have hcount : count = 10 := by omega
    subst hcount
    have hn0 : n = 0 := by simpa using hn
    subst hn0
    simp [encode_varint_fuel, decode_varint_loop]
  | succ fuel ih =>
    intro count acc n rest hc hn hacc
    simp only [encode_varint_fuel]
    split
    · rename_i hlt
      simp only [List.cons_append, decode_varint_loop]
      rw [if_pos hlt]
      have hnot : ¬(count = 9 ∧ 1 < n) := by
        rintro ⟨h9, hgt⟩
        subst h9
        simp at hn
        omega
      rw [if_neg hnot, lor_shift_eq_add hacc]
      simp
    · rename_i hge
      push_neg at hge
      have hcount9 : count ≠ 9 := by
        intro h9
        subst h9
        simp at hn
        omega
      have hcle : count ≤ 8 := by omega
      simp only [List.cons_append, decode_varint_loop]
      rw [if_neg (by omega), if_neg (by omega)]
      have hand : (n % 0x80 + 0x80) &&& 0x7f = n % 0x80 := by
        have : (0x7f : Nat) = 2 ^ 7 - 1 := by norm_num
        rw [this, Nat.and_pow_two_sub_one_eq_mod]
        omega
      rw [hand, lor_shift_eq_add hacc]
      have hrec : n >>> 7 < 2 ^ (64 - 7 * (count + 1)) := by
        rw [Nat.shiftRight_eq_div_pow]
        have h1 : 64 - 7 * count = 64 - 7 * (count + 1) + 7 := by omega
        rw [h1, Nat.pow_add] at hn
        exact Nat.div_lt_of_lt_mul (by omega)
      have hacc2 : acc + n % 0x80 * 2 ^ (7 * count) < 2 ^ (7 * (count + 1)) := by
        have h1 : n % 0x80 ≤ 0x7f := by omega
        have h2 : 7 * (count + 1) = 7 * count + 7 := by omega
        rw [h2, Nat.pow_add]
        have : n % 0x80 * 2 ^ (7 * count) ≤ 0x7f * 2 ^ (7 * count) :=
          Nat.mul_le_mul_right _ h1
        have hpos : 0 < 2 ^ (7 * count) := Nat.pos_pow_of_pos _ (by omega)
        nlinarith
      simp only [List.append_eq]
      rw [ih (count + 1) (acc + n % 0x80 * 2 ^ (7 * count)) (n >>> 7) rest
        (by omega) hrec hacc2]
      congr 2
      rw [Nat.shiftRight_eq_div_pow]
      have h2 : 7 * (count + 1) = 7 * count + 7 := by omega
      rw [h2, Nat.pow_add]
      have hnm : n % 2 ^ 7 + n / 2 ^ 7 * 2 ^ 7 = n := by
        omega
      calc acc + n % 0x80 * 2 ^ (7 * count) + n / 2 ^ 7 * (2 ^ (7 * count) * 2 ^ 7)
          = acc + (n % 2 ^ 7 + n / 2 ^ 7 * 2 ^ 7) * 2 ^ (7 * count) := by
            norm_num
            ring
        _ = acc + n * 2 ^ (7 * count) := by rw [hnm]

theorem decode_varint_encode {n : Nat} (hn : n < 2 ^ 64) (rest : List Nat) :
    decode_varint (encode_varint n ++ rest) = some (n, rest) := by
  have := decode_varint_loop_encode 10 0 0 n rest (by omega) (by simpa using hn)
    (by simp)
  simpa [decode_varint, encode_varint] using this

theorem takePad_length (n : Nat) (l : List Nat) : (takePad n l).length = n := by
  simp only [takePad, List.length_append, List.length_take, List.length_replicate]
  omega

theorem takePad_cons (n a : Nat) (l : List Nat) :
    takePad (n + 1) (a :: l) = a :: takePad n l := by
  simp [takePad]

theorem takePad_append_of_le {l : List Nat} {n : Nat} (h : l.length ≤ n)
    (x : List Nat) : takePad n (l ++ x) = l ++ takePad (n - l.length) x := by
  obtain ⟨m, rfl⟩ : ∃ m, n = l.length + m := ⟨n - l.length, by omega⟩
  have hrep : l.length + m - (l.length + x.length) = m - x.length := by omega
  simp only [takePad, List.length_append, List.take_append, hrep,
    Nat.add_sub_cancel_left, List.append_assoc]

theorem takePad_eq_self {l : List Nat} {n : Nat} (h : l.length = n) :
    takePad n l = l := by
  subst h
  simp [takePad, List.take_of_length_le (Nat.le_refl _)]

theorem crc32_step_lt {c : Nat} (h : c < 2 ^ 32) : crc32_step c < 2 ^ 32 := by
  have hdiv : c >>> 1 < 2 ^ 32 := by
    rw [Nat.shiftRight_eq_div_pow]
    omega
  unfold crc32_step
  split
  · exact nat_xor_lt_two_pow hdiv (by norm_num [crc32_poly])
  · exact hdiv

theorem crc32_rounds_lt {k c : Nat} (h : c < 2 ^ 32) : crc32_rounds k c < 2 ^ 32 := by
  induction k generalizing c with
  | zero => exact h
  | succ k ih => exact ih (crc32_step_lt h)

theorem crc32_update_lt {c b : Nat} (hc : c < 2 ^ 32) (hb : b < 256) :
    crc32_update c b < 2 ^ 32 :=
  crc32_rounds_lt (nat_xor_lt_two_pow hc (by omega))

theorem crc32_foldl_lt : ∀ (l : List Nat) (c : Nat), (∀ b ∈ l, b < 256) →
    c < 2 ^ 32 → l.foldl crc32_update c < 2 ^ 32 := by
  intro l
  induction l with
  | nil => intro c _ hc; exact hc
  | cons b t ih =>
    intro c h hc
    simp only [List.foldl_cons]
    exact ih _ (fun x hx => h x (List.mem_cons_of_mem _ hx))
      (crc32_update_lt hc (h b (List.mem_cons_self _ _)))

theorem crc32_lt {l : List Nat} (h : ∀ b ∈ l, b < 256) : crc32 l < 2 ^ 32 := by
  unfold crc32
  exact nat_xor_lt_two_pow (crc32_foldl_lt l _ h (by norm_num)) (by norm_num)

theorem get_u32_be_put {n : Nat} (h : n < 2 ^ 32) (tail : List Nat) :
    get_u32_be (put_u32_be n ++ tail) = n := by
  simp only [put_u32_be, List.cons_append, List.nil_append, get_u32_be]
  omega

theorem put_u32_be_length (n : Nat) : (put_u32_be n).length = 4 := rfl

theorem LogDbType.toU8_lt (t : LogDbType) : t.toU8 < 256 := by
  cases t <;> simp [LogDbType.toU8]

theorem LogDbType.from_u8_toU8 (t : LogDbType) : LogDbType.from_u8 t.toU8 = some t := by
  cases t <;> rfl

theorem LogDb.enc_body_bytes_lt (r : LogDb) (hk : ∀ b ∈ r.key, b < 256)
    (hv : ∀ b ∈ r.value, b < 256) : ∀ b ∈ r.enc_body, b < 256 := by
  intro b hb
  simp only [LogDb.enc_body, List.mem_cons, List.mem_append] at hb
  rcases hb with h | ((h | h) | h) | h
  · subst h; exact r.rec_type.toU8_lt
  · exact encode_varint_bytes_lt _ b h
  · exact encode_varint_bytes_lt _ b h
  · exact hk b h
  · exact hv b h

theorem LogDb.get_crc_lt (r : LogDb) (hk : ∀ b ∈ r.key, b < 256)
    (hv : ∀ b ∈ r.value, b < 256) : r.get_crc < 2 ^ 32 :=
  crc32_lt (r.enc_body_bytes_lt hk hv)

theorem LogDb.encode_length (r : LogDb) : r.encode.length = r.encoded_length := by
  simp only [LogDb.encode, LogDb.enc_body, LogDb.encoded_length, length_delimiter_len,
    List.length_append, List.length_cons, put_u32_be_length]
  omega

/-- Core codec round trip: reading at an offset whose suffix starts with the
encoding of a well-formed record returns exactly that record together with
its encoded length (regardless of what follows the record, including
nothing at all, thanks to the zero-padded read model). -/
theorem read_log_db_encode (r : LogDb) (file rest : List Nat) (offset : Nat)
    (hfile : file.drop offset = r.encode ++ rest)
    (hk35 : r.key.length < 2 ^ 35) (hv35 : r.value.length < 2 ^ 35)
    (hkb : ∀ b ∈ r.key, b < 256) (hvb : ∀ b ∈ r.value, b < 256)
    (hne : ¬(r.key = [] ∧ r.value = [])) :
    read_log_db file offset = .ok ⟨r, r.encode.length⟩ := by
  have hv1 : (encode_varint r.key.length).length ≤ 5 :=
    encode_varint_length_le (by norm_num) (by norm_num at hk35 ⊢; omega)
  have hv2 : (encode_varint r.value.length).length ≤ 5 :=
    encode_varint_length_le (by norm_num) (by norm_num at hv35 ⊢; omega)
  have henc : r.encode ++ rest = r.rec_type.toU8 ::
      (encode_varint r.key.length ++ (encode_varint r.value.length ++
        (r.key ++ (r.value ++ (put_u32_be r.get_crc ++ rest))))) := by
    simp [LogDb.encode, LogDb.enc_body, List.append_assoc]
  have hmax : max_log_db_header_size = 10 + 1 := by rfl
  have hk64 : r.key.length < 2 ^ 64 := by
    have : (2:Nat) ^ 35 < 2 ^ 64 := by norm_num
    omega
  have hval64 : r.value.length < 2 ^ 64 := by
    have : (2:Nat) ^ 35 < 2 ^ 64 := by norm_num
    omega
  -- the 10-byte buffer after the kind byte starts with the two varints
  have hbuf10 : takePad 10 (encode_varint r.key.length ++
      (encode_varint r.value.length ++
        (r.key ++ (r.value ++ (put_u32_be r.get_crc ++ rest))))) =
      encode_varint r.key.length ++ (encode_varint r.value.length ++
        takePad (10 - (encode_varint r.key.length).length -
          (encode_varint r.value.length).length)
          (r.key ++ (r.value ++ (put_u32_be r.get_crc ++ rest)))) := by
    rw [takePad_append_of_le (by omega)]
    congr 1
    rw [takePad_append_of_le (by omega)]
  have hdec1 : decode_varint (encode_varint r.key.length ++
      (encode_varint r.value.length ++
        takePad (10 - (encode_varint r.key.length).length -
          (encode_varint r.value.length).length)
          (r.key ++ (r.value ++ (put_u32_be r.get_crc ++ rest))))) =
      some (r.key.length, encode_varint r.value.length ++
        takePad (10 - (encode_varint r.key.length).length -
          (encode_varint r.value.length).length)
          (r.key ++ (r.value ++ (put_u32_be r.get_crc ++ rest)))) :=
    decode_varint_encode hk64 _
  have hdec2 : decode_varint (encode_varint r.value.length ++
      takePad (10 - (encode_varint r.key.length).length -
        (encode_varint r.value.length).length)
        (r.key ++ (r.value ++ (put_u32_be r.get_crc ++ rest)))) =
      some (r.value.length,
        takePad (10 - (encode_varint r.key.length).length -
          (encode_varint r.value.length).length)
          (r.key ++ (r.value ++ (put_u32_be r.get_crc ++ rest)))) :=
    decode_varint_encode hval64 _
  have hnzero : ¬(r.key.length = 0 ∧ r.value.length = 0) := by
    intro ⟨h1, h2⟩
    exact hne ⟨List.length_eq_zero.mp h1, List.length_eq_zero.mp h2⟩
  -- the key/value/crc buffer
  have hkv_pre : (r.key ++ (r.value ++ put_u32_be r.get_crc)).length =
      r.key.length + r.value.length + 4 := by
    simp [put_u32_be_length]
    omega
  have hdrop : file.drop (offset + (length_delimiter_len r.key.length +
      length_delimiter_len r.value.length + 1)) =
      r.key ++ (r.value ++ (put_u32_be r.get_crc ++ rest)) := by
    rw [← List.drop_drop, hfile, henc]
    have : (r.rec_type.toU8 :: (encode_varint r.key.length ++
        encode_varint r.value.length) : List Nat).length =
        length_delimiter_len r.key.length + length_delimiter_len r.value.length + 1 := by
      simp [length_delimiter_len]
    rw [show (r.rec_type.toU8 ::
        (encode_varint r.key.length ++ (encode_varint r.value.length ++
          (r.key ++ (r.value ++ (put_u32_be r.get_crc ++ rest))))) : List Nat) =
        (r.rec_type.toU8 :: (encode_varint r.key.length ++ encode_varint r.value.length)) ++
          (r.key ++ (r.value ++ (put_u32_be r.get_crc ++ rest))) by
      simp [List.append_assoc]]
    exact List.drop_left' this
  have hkv : takePad (r.key.length + r.value.length + 4)
      (r.key ++ (r.value ++ (put_u32_be r.get_crc ++ rest))) =
      r.key ++ (r.value ++ put_u32_be r.get_crc) := by
    rw [show (r.key ++ (r.value ++ (put_u32_be r.get_crc ++ rest)) : List Nat) =
        (r.key ++ (r.value ++ put_u32_be r.get_crc)) ++ rest by simp [List.append_assoc]]
    rw [takePad_append_of_le (by rw [hkv_pre])]
    rw [hkv_pre]
    simp [takePad]
  simp only [read_log_db, hfile, henc, hmax]
  rw [show ∀ (a : Nat) (l : List Nat), takePad (10 + 1) (a :: l) = a :: takePad 10 l
    from fun a l => takePad_cons 10 a l]
  simp only [hbuf10, hdec1, hdec2]
  rw [if_neg hnzero]
  simp only [LogDbType.from_u8_toU8]
  simp only [hdrop, hkv]
  rw [List.take_left' rfl]
  rw [List.drop_left' rfl]
  rw [List.take_left' rfl]
  have hcrc_drop : (r.key ++ (r.value ++ put_u32_be r.get_crc)).drop
      (r.key.length + r.value.length) = put_u32_be r.get_crc := by
    rw [show (r.key ++ (r.value ++ put_u32_be r.get_crc) : List Nat) =
        (r.key ++ r.value) ++ put_u32_be r.get_crc by simp [List.append_assoc]]
    exact List.drop_left' (by simp)
  rw [hcrc_drop]
  have hget : get_u32_be (put_u32_be r.get_crc) =
      LogDb.get_crc ⟨r.key, r.value, r.rec_type⟩ := by
    have := get_u32_be_put (r.get_crc_lt hkb hvb) []
    simpa using this
  rw [if_neg (by simp [hget])]
  have hlen : length_delimiter_len r.key.length + length_delimiter_len r.value.length
      + 1 + r.key.length + r.value.length + 4 = r.encode.length := by
    rw [LogDb.encode_length]
    simp only [LogDb.encoded_length]
    omega
  simp [hlen]

theorem parse_log_db_key_with_seq {n : Nat} (hn : n < 2 ^ 64) (k : List Nat) :
    parse_log_db_key (log_db_key_with_seq k n) = some (k, n) := by
  simp [parse_log_db_key, log_db_key_with_seq, decode_varint_encode hn]

/-- Claim C3: for every record of any kind with key and value sizes in the
range the on-disk format supports (length varints of at most 5 bytes, i.e.
below `2^35`, as laid out in the header format), reading the encoding at the
record's offset returns the record itself with total size equal to the
encoded length, and the CRC trailer stored in the encoding recombines to the
recomputed CRC; when both the key and the value are empty the parsed sizes
are both zero, so the reader reports EOF instead. -/
theorem claim_c3_codec_round_trip :
    (∀ (r : LogDb) (file rest : List Nat) (offset : Nat),
      file.drop offset = r.encode ++ rest →
      r.key.length < 2 ^ 35 → r.value.length < 2 ^ 35 →
      (∀ b ∈ r.key, b < 256) → (∀ b ∈ r.value, b < 256) →
      ¬(r.key = [] ∧ r.value = []) →
      read_log_db file offset = .ok ⟨r, r.encode.length⟩ ∧
        get_u32_be (r.encode.drop (r.encode.length - 4)) = r.get_crc) ∧
    (∀ r : LogDb, r.key = [] → r.value = [] →
      read_log_db (r.encode ++ []) 0 = .error .IoEof) := by
  constructor
  · intro r file rest offset hfile hk35 hv35 hkb hvb hne
    refine ⟨read_log_db_encode r file rest offset hfile hk35 hv35 hkb hvb hne, ?_⟩
    have hdrop : r.encode.drop (r.encode.length - 4) = put_u32_be r.get_crc := by
      rw [LogDb.encode]
      exact List.drop_left'
        (by simp only [List.length_append, put_u32_be_length]; omega)
    rw [hdrop]
    have := get_u32_be_put (r.get_crc_lt hkb hvb) []
    simpa using this
  · intro r hk hv
    obtain ⟨key, value, t⟩ := r
    simp only at hk hv
    subst hk hv
    cases t <;> decide

/-- Witness for claim C3: the concrete record from the source's own test
with key "name" and value "bitcask-rs", followed by stray bytes, and the
empty-key empty-value NORMAL record that reads back as EOF. -/
theorem claim_c3_codec_round_trip_witness :
    (read_log_db ((LogDb.encode ⟨[110, 97, 109, 101],
        [98, 105, 116, 99, 97, 115, 107, 45, 114, 115], .NORMAL⟩) ++ [7, 7, 7]) 0 =
      .ok ⟨⟨[110, 97, 109, 101],
        [98, 105, 116, 99, 97, 115, 107, 45, 114, 115], .NORMAL⟩,
        (LogDb.encode ⟨[110, 97, 109, 101],
          [98, 105, 116, 99, 97, 115, 107, 45, 114, 115], .NORMAL⟩).length⟩ ∧
      get_u32_be ((LogDb.encode ⟨[110, 97, 109, 101],
        [98, 105, 116, 99, 97, 115, 107, 45, 114, 115], .NORMAL⟩).drop
          ((LogDb.encode ⟨[110, 97, 109, 101],
            [98, 105, 116, 99, 97, 115, 107, 45, 114, 115], .NORMAL⟩).length - 4)) =
        LogDb.get_crc ⟨[110, 97, 109, 101],
          [98, 105, 116, 99, 97, 115, 107, 45, 114, 115], .NORMAL⟩) ∧
    read_log_db (LogDb.encode ⟨[], [], .DELETED⟩ ++ []) 0 = .error .IoEof := by
  constructor
  · exact claim_c3_codec_round_trip.1 _ _ [7, 7, 7] 0 (by decide) (by decide)
      (by decide) (by decide) (by decide) (by decide)
  · exact claim_c3_codec_round_trip.2 ⟨[], [], .DELETED⟩ rfl rfl

/-- Record position `LogDbPos`: (file_id: u32, offset: u64, size: u32). -/
structure LogDbPos where
  file_id : Nat
  offset : Nat
  size : Nat
deriving DecidableEq

/-- Iterator options (`IteratorOptions` in `db/index.rs`).  The byte-string
filter field is named after a word Lean reserves, hence `prefix_bytes`
here; `reverse` selects descending iteration. -/
structure IteratorOptions where
  prefix_bytes : List Nat
  reverse : Bool
deriving DecidableEq

/-- Snapshot iterator over the ordered in-memory index
(`BTreeIterator` in `index/btree.rs`). -/
structure BTreeIterator where
  items : List (List Nat × LogDbPos)
  curr_index : Nat
  options : IteratorOptions
deriving DecidableEq

/-- `BTree::iterator`: copy the ordered map's entries into a vector
(`tree_items` is the ascending entry list produced by `BTreeMap::iter`),
reversing it when `reverse` is set, and start at index 0. -/
def BTree.iterator (tree_items : List (List Nat × LogDbPos))
    (options : IteratorOptions) : BTreeIterator :=
  ⟨if options.reverse then tree_items.reverse else tree_items, 0, options⟩

/-- The while-loop inside `BTreeIterator::next`: starting at absolute index
`i`, step over entries that do not carry the prefix and return the first
hit together with the index just past it. -/
def next_find (items : List (List Nat × LogDbPos)) (pre : List Nat) (i : Nat) :
    Option ((List Nat × LogDbPos) × Nat) :=
  match h : items[i]? with
  | none => none
  | some item =>
    if pre.isEmpty || pre.isPrefixOf item.1 then some (item, i + 1)
    else next_find items pre (i + 1)
termination_by items.length - i
decreasing_by
  have hi : i < items.length := by
    by_contra hge
    rw [List.getElem?_eq_none (by omega)] at h
    exact Option.noConfusion h
  omega

/-- `BTreeIterator::next`: `None` once `curr_index` reaches the snapshot
length, otherwise the prefix-skipping loop above. -/
def BTreeIterator.next (it : BTreeIterator) :
    Option ((List Nat × LogDbPos) × BTreeIterator) :=
  if it.items.length ≤ it.curr_index then none
  else
    match next_find it.items it.options.prefix_bytes it.curr_index with
    | none => none
    | some (item, j) => some (item, ⟨it.items, j, it.options⟩)

/-- Repeatedly call `next`, collecting the yielded entries (fuel-bounded;
any fuel of at least `items.length` is enough). -/
def BTreeIterator.collect : BTreeIterator → Nat → List (List Nat × LogDbPos)
  | _, 0 => []
  | it, fuel + 1 =>
    match it.next with
    | none => []
    | some (item, it2) => item :: it2.collect fuel

/-- Everything the iterator yields until `next` returns `None`. -/
def BTreeIterator.yield_all (it : BTreeIterator) : List (List Nat × LogDbPos) :=
  it.collect (it.items.length + 1)

theorem next_find_spec (items : List (List Nat × LogDbPos)) (pre : List Nat) :
    ∀ i, (next_find items pre i = none ∧
        (items.drop i).filter (fun kv => pre.isEmpty || pre.isPrefixOf kv.1) = [])
      ∨ (∃ item j, next_find items pre i = some (item, j) ∧ i < j ∧ j ≤ items.length ∧
          (items.drop i).filter (fun kv => pre.isEmpty || pre.isPrefixOf kv.1) =
            item :: (items.drop j).filter (fun kv => pre.isEmpty || pre.isPrefixOf kv.1)) := by
  have H : ∀ d i, items.length - i ≤ d →
      (next_find items pre i = none ∧
        (items.drop i).filter (fun kv => pre.isEmpty || pre.isPrefixOf kv.1) = [])
      ∨ (∃ item j, next_find items pre i = some (item, j) ∧ i < j ∧ j ≤ items.length ∧
          (items.drop i).filter (fun kv => pre.isEmpty || pre.isPrefixOf kv.1) =
            item :: (items.drop j).filter (fun kv => pre.isEmpty || pre.isPrefixOf kv.1)) := by
    intro d
    induction d with
    | zero =>
      intro i hd
      left
      have hge : items.length ≤ i := by omega
      have hdrop : items.drop i = [] := List.drop_eq_nil_of_le hge
      constructor
      · rw [next_find, List.getElem?_eq_none hge]
      · rw [hdrop, List.filter_nil]
    | succ d ih =>
      intro i hd
      by_cases hi : i < items.length
      · have hsome : items[i]? = some items[i] := List.getElem?_eq_getElem hi
        have hdrop : items.drop i = items[i] :: items.drop (i + 1) :=
          List.drop_eq_getElem_cons hi
        by_cases hp : (pre.isEmpty || pre.isPrefixOf items[i].1) = true
        · right
          refine ⟨items[i], i + 1, ?_, by omega, by omega, ?_⟩
          · rw [next_find, hsome]
            simp only [hp, if_true]
          · rw [hdrop, List.filter_cons, if_pos hp]
        · have hnf : next_find items pre i = next_find items pre (i + 1) := by
            rw [next_find, hsome]
            simp only [hp, if_false]
            rfl
          have hflt : (items.drop i).filter
              (fun kv => pre.isEmpty || pre.isPrefixOf kv.1) =
              (items.drop (i + 1)).filter
                (fun kv => pre.isEmpty || pre.isPrefixOf kv.1) := by
            rw [hdrop, List.filter_cons, if_neg hp]
          rcases ih (i + 1) (by omega) with ⟨h1, h2⟩ | ⟨item, j, h1, h2, h3, h4⟩
          · left
            exact ⟨by rw [hnf]; exact h1, by rw [hflt]; exact h2⟩
          · right
            exact ⟨item, j, by rw [hnf]; exact h1, by omega, h3, by rw [hflt]; exact h4⟩
      · left
        have hge : items.length ≤ i := by omega
        constructor
        · rw [next_find, List.getElem?_eq_none hge]
        · rw [List.drop_eq_nil_of_le hge, List.filter_nil]
  intro i
  exact H (items.length - i) i (Nat.le_refl _)

theorem collect_eq_filter :
    ∀ (fuel : Nat) (items : List (List Nat × LogDbPos)) (i : Nat)
      (opts : IteratorOptions), items.length - i ≤ fuel →
      BTreeIterator.collect ⟨items, i, opts⟩ fuel =
        (items.drop i).filter
          (fun kv => opts.prefix_bytes.isEmpty || opts.prefix_bytes.isPrefixOf kv.1) := by
  intro fuel
  induction fuel with
  | zero =>
    intro items i opts hfuel
    rw [List.drop_eq_nil_of_le (by omega), List.filter_nil]
    rfl
  | succ fuel ih =>
    intro items i opts hfuel
    rw [BTreeIterator.collect]
    by_cases hi : items.length ≤ i
    · rw [BTreeIterator.next]
      simp only [if_pos hi]
      rw [List.drop_eq_nil_of_le hi, List.filter_nil]
    · rw [BTreeIterator.next]
      simp only [if_neg hi]
      rcases next_find_spec items opts.prefix_bytes i with ⟨h1, h2⟩ |
        ⟨item, j, h1, h2, h3, h4⟩
      · simp only [h1, h2]
      · simp only [h1, h4]
        congr 1
        exact ih items j opts (by omega)

theorem yield_all_eq_filter (items : List (List Nat × LogDbPos))
    (opts : IteratorOptions) :
    (BTree.iterator items opts).yield_all =
      (if opts.reverse then items.reverse else items).filter
        (fun kv => opts.prefix_bytes.isEmpty || opts.prefix_bytes.isPrefixOf kv.1) := by
  show BTreeIterator.collect
      ⟨if opts.reverse then items.reverse else items, 0, opts⟩
      ((if opts.reverse then items.reverse else items).length + 1) = _
  rw [collect_eq_filter _ _ 0 opts (by omega), List.drop_zero]

/-- Claim C7: with the index snapshot sorted by ascending key (the
`BTreeMap` iteration invariant), the iterator with default options yields
keys in ascending lexicographic byte order; with `reverse` set it yields
them in descending order; and with a non-empty prefix every yielded entry's
key starts with that prefix (other entries are skipped). -/
theorem claim_c7_iterator_ordering (entries : List (List Nat × LogDbPos))
    (hsorted : entries.Pairwise (fun a b => List.Lex (· < ·) a.1 b.1)) :
    ((BTree.iterator entries ⟨[], false⟩).yield_all.map Prod.fst).Pairwise
        (List.Lex (· < ·)) ∧
    ((BTree.iterator entries ⟨[], true⟩).yield_all.map Prod.fst).Pairwise
        (fun a b => List.Lex (· < ·) b a) ∧
    (∀ (pre : List Nat) (rev : Bool), pre ≠ [] →
      ∀ kv ∈ (BTree.iterator entries ⟨pre, rev⟩).yield_all, pre <+: kv.1) := by
  refine ⟨?_, ?_, ?_⟩
  · have h1 : (BTree.iterator entries ⟨[], false⟩).yield_all = entries := by
      rw [yield_all_eq_filter]
      simp
    rw [h1]
    exact hsorted.map Prod.fst (fun a b h => h)
  · have h2 : (BTree.iterator entries ⟨[], true⟩).yield_all = entries.reverse := by
      rw [yield_all_eq_filter]
      simp
    rw [h2, List.map_reverse, List.pairwise_reverse]
    exact hsorted.map Prod.fst (fun a b h => h)
  · intro pre rev hpre kv hkv
    rw [yield_all_eq_filter] at hkv
    have hmem := List.mem_filter.mp hkv
    have hp := hmem.2
    have hempty : pre.isEmpty = false := by
      cases pre with
      | nil => exact absurd rfl hpre
      | cons a t => rfl
    rw [hempty, Bool.false_or] at hp
    exact List.isPrefixOf_iff_prefix.mp hp

/-- Witness for claim C7: a three-entry sorted snapshot with keys "aa",
"ab", "b"; the prefix "a" selects the first two. -/
theorem claim_c7_iterator_ordering_witness :
    ((BTree.iterator [([97, 97], ⟨1, 0, 7⟩), ([97, 98], ⟨1, 7, 7⟩), ([98], ⟨1, 14, 6⟩)]
        ⟨[], false⟩).yield_all.map Prod.fst).Pairwise (List.Lex (· < ·)) ∧
    ((BTree.iterator [([97, 97], ⟨1, 0, 7⟩), ([97, 98], ⟨1, 7, 7⟩), ([98], ⟨1, 14, 6⟩)]
        ⟨[], true⟩).yield_all.map Prod.fst).Pairwise (fun a b => List.Lex (· < ·) b a) ∧
    (∀ (pre : List Nat) (rev : Bool), pre ≠ [] →
      ∀ kv ∈ (BTree.iterator
        [([97, 97], ⟨1, 0, 7⟩), ([97, 98], ⟨1, 7, 7⟩), ([98], ⟨1, 14, 6⟩)]
        ⟨pre, rev⟩).yield_all, pre <+: kv.1) :=
  claim_c7_iterator_ordering
    [([97, 97], ⟨1, 0, 7⟩), ([97, 98], ⟨1, 7, 7⟩), ([98], ⟨1, 14, 6⟩)]
    (by decide)

/-- Index backend selection (`IndexType` in `db/config.rs`). -/
inductive IndexType
  | BTree
  | BPlusTree
deriving DecidableEq

/-- Engine configuration (`Config` in `db/config.rs`), restricted to the
fields the modelled operations consult (the path only matters for real
I/O). -/
structure Config where
  file_size_db : Nat
  sync_writes : Bool
  bytes_per_sync : Nat
  index_type : IndexType
deriving DecidableEq

/-- The in-memory index, modelled as an association list from logical key
to position with the `BTreeMap` lookup/insert/remove semantics (at most one
entry per key; the iteration order of the real map is handled separately by
the snapshot model above). -/
abbrev Index := List (List Nat × LogDbPos)

/-- `BTreeMap::get`. -/
def idx_get (idx : Index) (k : List Nat) : Option LogDbPos := idx.lookup k

/-- `BTreeMap::insert`: returns the previous position, if any, together
with the updated map. -/
def idx_put (idx : Index) (k : List Nat) (pos : LogDbPos) :
    Option LogDbPos × Index :=
  (idx.lookup k, (k, pos) :: idx.eraseP (fun e => e.1 == k))

/-- `BTreeMap::remove`: returns the removed position, if any. -/
def idx_delete (idx : Index) (k : List Nat) : Option LogDbPos × Index :=
  (idx.lookup k, idx.eraseP (fun e => e.1 == k))

/-- The engine state (`LiteDb` in `lite/lite_.rs`) restricted to the state
the modelled operations touch.  The active segment's write offset is
`active_data.length` (`FileDb` keeps the two in sync on this path: `write`
advances `write_off` by the bytes written). -/
structure Engine where
  config : Config
  active_id : Nat
  active_data : List Nat
  older_files : List (Nat × List Nat)
  index : Index
  seq_no : Nat
  bytes_write : Nat
  reclaim_size : Nat
deriving DecidableEq

/-- `LiteDb::append_log_db`: encode the record; roll the active segment
over when the append would exceed the configured cap (the old segment moves
into the older-files map and a fresh segment with id+1 becomes active);
append at the current write offset; maintain the bytes-since-sync counter
(reset when this append syncs); return the position, whose size field is
the encoded length as a `u32`. -/
def append_log_db (e : Engine) (log_db : LogDb) : Engine × LogDbPos :=
  let enc := log_db.encode
  let e1 :=
    if e.active_data.length + enc.length > e.config.file_size_db then
      { e with
          older_files := (e.active_id, e.active_data) :: e.older_files,
          active_id := e.active_id + 1,
          active_data := [] }
    else e
  let write_off := e1.active_data.length
  let previous := e1.bytes_write
  let need_sync : Bool := e1.config.sync_writes ||
    (decide (0 < e1.config.bytes_per_sync) &&
      decide (e1.config.bytes_per_sync ≤ previous + enc.length))
  ({ e1 with
      active_data := e1.active_data ++ enc,
      bytes_write := if need_sync then 0 else e1.bytes_write + enc.length },
    ⟨e1.active_id, write_off, enc.length % 2 ^ 32⟩)

/-- `LiteDb::get_value_by_pos`: read the record at the position, from the
active segment when the file id matches and from the older-files map
otherwise; a DELETED record is reported as `NotFindKey`. -/
def get_value_by_pos (e : Engine) (pos : LogDbPos) : Except ErrDb (List Nat) :=
  let read_res :=
    if e.active_id = pos.file_id then read_log_db e.active_data pos.offset
    else
      match (e.older_files.lookup pos.file_id) with
      | none => .error .IoFileNotFind
      | some data => read_log_db data pos.offset
  match read_res with
  | .error er => .error er
  | .ok rd =>
    if rd.log_db.rec_type = .DELETED then .error .NotFindKey
    else .ok rd.log_db.value

/-- `LiteDb::get` (`Getter` impl): index lookup, then read by position. -/
def lite_get (e : Engine) (k : List Nat) : Except ErrDb (List Nat) :=
  match idx_get e.index k with
  | none => .error .NotFindKey
  | some p => get_value_by_pos e p

/-- `LiteDb::add` (`Adder` impl): reject the empty key, append a NORMAL
record whose stored key carries sequence prefix 0, then update the index,
counting any replaced position as reclaimable. -/
def lite_add (e : Engine) (k v : List Nat) : Except ErrDb Engine :=
  if k = [] then .error .InvalidParameter
  else
    let log_db : LogDb :=
      ⟨log_db_key_with_seq k NON_TRANSACTION_SEQ_NO, v, .NORMAL⟩
    let ep := append_log_db e log_db
    let oldidx := idx_put ep.1.index k ep.2
    .ok { ep.1 with
            index := oldidx.2,
            reclaim_size := ep.1.reclaim_size +
              (match oldidx.1 with
               | some old_pos => old_pos.size
               | none => 0) }

/-- A sequence of `add` calls for the same key, left to right. -/
def lite_add_all (e : Engine) (k : List Nat) : List (List Nat) → Except ErrDb Engine
  | [] => .ok e
  | v :: rest =>
    match lite_add e k v with
    | .error er => .error er
    | .ok e2 => lite_add_all e2 k rest

theorem append_log_db_spec (e : Engine) (r : LogDb) :
    ∃ pre : List Nat,
      (append_log_db e r).1.active_data = pre ++ r.encode ∧
      (append_log_db e r).2.offset = pre.length ∧
      (append_log_db e r).2.file_id = (append_log_db e r).1.active_id ∧
      (append_log_db e r).1.index = e.index ∧
      (append_log_db e r).1.config = e.config ∧
      (append_log_db e r).1.seq_no = e.seq_no ∧
      (append_log_db e r).1.older_files.length ≥ e.older_files.length := by
  unfold append_log_db
  by_cases h : e.active_data.length + r.encode.length > e.config.file_size_db
  · refine ⟨[], ?_⟩
    simp [h]
  · refine ⟨e.active_data, ?_⟩
    simp [h]

/-- The engine produced by a successful `lite_add` (the body of `lite_add`
past the empty-key guard), named so that proofs can refer to it. -/
def lite_add_result (e : Engine) (k v : List Nat) : Engine :=
  let log_db : LogDb :=
    ⟨log_db_key_with_seq k NON_TRANSACTION_SEQ_NO, v, .NORMAL⟩
  let ep := append_log_db e log_db
  let oldidx := idx_put ep.1.index k ep.2
  { ep.1 with
      index := oldidx.2,
      reclaim_size := ep.1.reclaim_size +
        (match oldidx.1 with
         | some old_pos => old_pos.size
         | none => 0) }

theorem lite_add_eq (e : Engine) (k v : List Nat) (hk : k ≠ []) :
    lite_add e k v = .ok (lite_add_result e k v) := by
  unfold lite_add lite_add_result
  rw [if_neg hk]

theorem lite_add_result_get (e : Engine) (k v : List Nat)
    (hk35 : k.length + 1 < 2 ^ 35) (hv35 : v.length < 2 ^ 35)
    (hkb : ∀ b ∈ k, b < 256) (hvb : ∀ b ∈ v, b < 256) :
    lite_get (lite_add_result e k v) k = .ok v := by
  have hkey : log_db_key_with_seq k NON_TRANSACTION_SEQ_NO = 0 :: k := rfl
  obtain ⟨pre, h1, h2, h3, _, _, _, _⟩ := append_log_db_spec e
    ⟨log_db_key_with_seq k NON_TRANSACTION_SEQ_NO, v, .NORMAL⟩
  have hread : read_log_db
      (append_log_db e ⟨log_db_key_with_seq k NON_TRANSACTION_SEQ_NO, v,
        .NORMAL⟩).1.active_data
      (append_log_db e ⟨log_db_key_with_seq k NON_TRANSACTION_SEQ_NO, v,
        .NORMAL⟩).2.offset =
      .ok ⟨⟨log_db_key_with_seq k NON_TRANSACTION_SEQ_NO, v, .NORMAL⟩,
        (LogDb.encode ⟨log_db_key_with_seq k NON_TRANSACTION_SEQ_NO, v,
          .NORMAL⟩).length⟩ := by
    apply read_log_db_encode _ _ [] _
      (by rw [h1, h2, List.append_nil, List.drop_left])
    · simp only [hkey, List.length_cons]
      omega
    · exact hv35
    · intro b hb
      simp only [hkey, List.mem_cons] at hb
      rcases hb with h | h
      · omega
      · exact hkb b h
    · exact hvb
    · intro ⟨hcontra, _⟩
      simp [hkey] at hcontra
  unfold lite_add_result lite_get idx_get idx_put
  simp only [List.lookup, beq_self_eq_true]
  unfold get_value_by_pos
  rw [if_pos h3.symm, hread]
  simp

theorem lite_add_get (e : Engine) (k v : List Nat) (hk : k ≠ [])
    (hk35 : k.length + 1 < 2 ^ 35) (hv35 : v.length < 2 ^ 35)
    (hkb : ∀ b ∈ k, b < 256) (hvb : ∀ b ∈ v, b < 256) :
    ∃ e2, lite_add e k v = .ok e2 ∧ lite_get e2 k = .ok v :=
  ⟨lite_add_result e k v, lite_add_eq e k v hk,
    lite_add_result_get e k v hk35 hv35 hkb hvb⟩

theorem lite_add_all_get (k : List Nat) (hk : k ≠ [])
    (hk35 : k.length + 1 < 2 ^ 35) (hkb : ∀ b ∈ k, b < 256) :
    ∀ (vs : List (List Nat)) (v : List Nat) (e : Engine),
      (∀ w ∈ vs, w.length < 2 ^ 35 ∧ ∀ b ∈ w, b < 256) →
      v.length < 2 ^ 35 → (∀ b ∈ v, b < 256) →
      ∃ e2, lite_add_all e k (vs ++ [v]) = .ok e2 ∧ lite_get e2 k = .ok v := by
  intro vs
  induction vs with
  | nil =>
    intro v e _ hv35 hvb
    obtain ⟨e2, hadd, hget⟩ := lite_add_get e k v hk hk35 hv35 hkb hvb
    refine ⟨e2, ?_, hget⟩
    simp only [List.nil_append, lite_add_all, hadd]
  | cons w ws ih =>
    intro v e hws hv35 hvb
    obtain ⟨e1, hadd1, _⟩ := lite_add_get e k w hk hk35
      (hws w (List.mem_cons_self _ _)).1 hkb (hws w (List.mem_cons_self _ _)).2
    obtain ⟨e2, hadd2, hget2⟩ := ih v e1
      (fun x hx => hws x (List.mem_cons_of_mem _ hx)) hv35 hvb
    refine ⟨e2, ?_, hget2⟩
    simp only [List.cons_append, lite_add_all, hadd1]
    exact hadd2

/-- Claim C2: for every engine state, every non-empty key (of on-disk
supportable size, with u8-valued bytes) and every non-empty sequence of
added values, running the adds in order and then `get` returns the most
recently added value. -/
theorem claim_c2_last_add_wins (e : Engine) (k : List Nat)
    (vs : List (List Nat)) (v : List Nat) (hk : k ≠ [])
    (hk35 : k.length + 1 < 2 ^ 35) (hkb : ∀ b ∈ k, b < 256)
    (hvs : ∀ w ∈ vs, w.length < 2 ^ 35 ∧ ∀ b ∈ w, b < 256)
    (hv35 : v.length < 2 ^ 35) (hvb : ∀ b ∈ v, b < 256) :
    ∃ e2, lite_add_all e k (vs ++ [v]) = .ok e2 ∧ lite_get e2 k = .ok v :=
  lite_add_all_get k hk hk35 hkb vs v e hvs hv35 hvb

/-- A fresh engine state used for concrete witnesses: empty active segment
0, no older files, empty index, sequence counter 1 (as `open` initialises
it), default-ish config. -/
def witness_engine : Engine :=
  ⟨⟨1024, false, 0, .BTree⟩, 0, [], [], [], 1, 0, 0⟩

/-- Witness for claim C2: add "k" ↦ "a" then "k" ↦ "b" on a fresh engine;
`get` returns "b". -/
theorem claim_c2_last_add_wins_witness :
    ∃ e2, lite_add_all witness_engine [107] [[97], [98]] = .ok e2 ∧
      lite_get e2 [107] = .ok [98] := by
  have h := claim_c2_last_add_wins witness_engine [107] [[97]] [98]
    (by decide) (by decide) (by decide) (by decide) (by decide) (by decide)
  simpa using h

/-- Options for a write batch (`WriteBatchOptions` in `db/config.rs`). -/
structure WriteBatchOptions where
  max_batch_num : Nat
  sync_writes : Bool
deriving DecidableEq

/-- Staged writes of a batch (`pending_writes: HashMap<Vec<u8>, LogDb>`),
modelled as an association list keyed by the logical key.  `put` and
`delete` keep the stored record's key equal to the map key; the HashMap's
(unspecified) iteration order is modelled by the list order. -/
abbrev Pending := List (List Nat × LogDb)

/-- `TXN_FIN_KEY`: the ASCII bytes of "txn-fin" (`batch.rs`). -/
def TXN_FIN_KEY : List Nat := [116, 120, 110, 45, 102, 105, 110]

/-- The terminating record appended by a batch commit: kind TXNFINISHED,
stored key = seq prefix ++ "txn-fin", empty value. -/
def finish_log_db (seq_no : Nat) : LogDb :=
  ⟨log_db_key_with_seq TXN_FIN_KEY seq_no, [], .TXNFINISHED⟩

/-- Outcome of `WriteBatch::commit` against a borrowed engine: the returned
result together with the engine state and the staging map afterwards (the
source mutates them in place). -/
structure CommitOutcome where
  res : Except ErrDb Unit
  engine : Engine
  pending : Pending
deriving DecidableEq

/-- First loop of `commit`: append each staged record under the batch's
sequence prefix, accumulating returned positions keyed by the logical key
(HashMap insert modelled by prepending). -/
def commit_append_loop (seq_no : Nat) :
    Pending → Engine × List (List Nat × LogDbPos) →
      Engine × List (List Nat × LogDbPos)
  | [], acc => acc
  | kv :: rest, (e, ps) =>
    let log_db : LogDb :=
      ⟨log_db_key_with_seq kv.2.key seq_no, kv.2.value, kv.2.rec_type⟩
    let ep := append_log_db e log_db
    commit_append_loop seq_no rest (ep.1, (kv.2.key, ep.2) :: ps)

/-- Second loop of `commit`: apply the staged updates to the index, adding
any replaced or removed old position's size to the reclaimable counter; the
`positions.get(..).unwrap()` on a missing entry panics. -/
def commit_index_loop (positions : List (List Nat × LogDbPos)) :
    Pending → Engine → Except ErrDb Engine
  | [], e => .ok e
  | kv :: rest, e =>
    match kv.2.rec_type with
    | .NORMAL =>
      match positions.lookup kv.2.key with
      | none => .error .Panic
      | some pos =>
        let oldidx := idx_put e.index kv.2.key pos
        commit_index_loop positions rest
          { e with
              index := oldidx.2,
              reclaim_size := e.reclaim_size +
                (match oldidx.1 with
                 | some op => op.size
                 | none => 0) }
    | .DELETED =>
      let oldidx := idx_delete e.index kv.2.key
      commit_index_loop positions rest
        { e with
            index := oldidx.2,
            reclaim_size := e.reclaim_size +
              (match oldidx.1 with
               | some op => op.size
               | none => 0) }
    | .TXNFINISHED => commit_index_loop positions rest e

/-- `WriteBatch::commit`: empty batch is a no-op success; an oversized
batch fails with InvalidBatch before anything else; otherwise take a fresh
sequence number (fetch-and-add), append every staged record and then the
TXNFINISHED terminator, optionally sync (no model state change), apply the
index updates and clear the staging map. -/
def commit (e : Engine) (pending : Pending) (options : WriteBatchOptions) :
    CommitOutcome :=
  if pending.length = 0 then ⟨.ok (), e, pending⟩
  else if pending.length > options.max_batch_num then
    ⟨.error .InvalidBatch, e, pending⟩
  else
    let seq_no := e.seq_no
    let e1 := { e with seq_no := e.seq_no + 1 }
    let eps := commit_append_loop seq_no pending (e1, [])
    let ep2 := append_log_db eps.1 (finish_log_db seq_no)
    match commit_index_loop eps.2 pending ep2.1 with
    | .error er => ⟨.error er, ep2.1, pending⟩
    | .ok e2 => ⟨.ok (), e2, []⟩

theorem commit_index_loop_preserves :
    ∀ (pending : Pending) (positions : List (List Nat × LogDbPos))
      (e e2 : Engine), commit_index_loop positions pending e = .ok e2 →
      e2.active_data = e.active_data ∧ e2.active_id = e.active_id ∧
        e2.seq_no = e.seq_no := by
  intro pending
  induction pending with
  | nil =>
    intro positions e e2 h
    cases h
    exact ⟨rfl, rfl, rfl⟩
  | cons kv rest ih =>
    intro positions e e2 h
    rw [commit_index_loop] at h
    cases ht : kv.2.rec_type with
    | NORMAL =>
      rw [ht] at h
      cases hl : positions.lookup kv.2.key with
      | none =>
        rw [hl] at h
        dsimp only at h
        exact absurd h (by simp)
      | some pos =>
        rw [hl] at h
        dsimp only at h
        have h2 := ih positions _ e2 h
        exact h2
    | DELETED =>
      rw [ht] at h
      dsimp only at h
      have h2 := ih positions _ e2 h
      exact h2
    | TXNFINISHED =>
      rw [ht] at h
      dsimp only at h
      exact ih positions _ e2 h

theorem commit_append_loop_preserves (seq_no : Nat) :
    ∀ (pending : Pending) (e : Engine) (ps : List (List Nat × LogDbPos)),
      (commit_append_loop seq_no pending (e, ps)).1.seq_no = e.seq_no := by
  intro pending
  induction pending with
  | nil => intro e ps; rfl
  | cons kv rest ih =>
    intro e ps
    rw [commit_append_loop]
    obtain ⟨_, _, _, _, _, _, hseq, _⟩ := append_log_db_spec e
      ⟨log_db_key_with_seq kv.2.key seq_no, kv.2.value, kv.2.rec_type⟩
    rw [ih]
    exact hseq

theorem append_log_db_suffix (e : Engine) (r : LogDb) :
    r.encode <:+ (append_log_db e r).1.active_data := by
  obtain ⟨pre, h1, _⟩ := append_log_db_spec e r
  rw [h1]
  exact List.suffix_append pre r.encode


theorem commit_engine_eq (e : Engine) (pending : Pending)
    (options : WriteBatchOptions) (hne : pending.length ≠ 0)
    (hmax : ¬ pending.length > options.max_batch_num) :
    commit e pending options = (
      let seq_no := e.seq_no
      let e1 := { e with seq_no := e.seq_no + 1 }
      let eps := commit_append_loop seq_no pending (e1, [])
      let ep2 := append_log_db eps.1 (finish_log_db seq_no)
      match commit_index_loop eps.2 pending ep2.1 with
      | .error er => ⟨.error er, ep2.1, pending⟩
      | .ok e2 => ⟨.ok (), e2, []⟩) := by
  unfold commit
  rw [if_neg hne, if_neg hmax]

/-- Claim C6 (amended): on every successful batch commit, the final record
appended for the batch is the TXNFINISHED terminator: its encoding is the
final suffix of the log after commit, its stored key carries the same
varint sequence-number prefix as every staged record of the batch, its
value is empty, and its logical key after the sequence prefix is the fixed
marker "txn-fin" (not the empty key that the original claim states). -/
theorem claim_c6_commit_txn_finished (e : Engine) (pending : Pending)
    (options : WriteBatchOptions) (hne : pending ≠ [])
    (hmax : pending.length ≤ options.max_batch_num)
    (hseq : e.seq_no < 2 ^ 64) :
    (finish_log_db e.seq_no).encode <:+
        (commit e pending options).engine.active_data ∧
    (finish_log_db e.seq_no).rec_type = .TXNFINISHED ∧
    (finish_log_db e.seq_no).value = [] ∧
    parse_log_db_key (finish_log_db e.seq_no).key =
      some (TXN_FIN_KEY, e.seq_no) ∧
    ∀ kv ∈ pending,
      parse_log_db_key (log_db_key_with_seq kv.2.key e.seq_no) =
        some (kv.2.key, e.seq_no) := by
  have hlen0 : pending.length ≠ 0 := by
    intro h0
    exact hne (List.length_eq_zero.mp h0)
  have hmax2 : ¬ pending.length > options.max_batch_num := by omega
  refine ⟨?_, rfl, rfl, parse_log_db_key_with_seq hseq _,
    fun kv _ => parse_log_db_key_with_seq hseq _⟩
  rw [commit_engine_eq e pending options hlen0 hmax2]
  dsimp only
  split
  · exact append_log_db_suffix _ _
  · rename_i e2 hloop
    obtain ⟨hd, _, _⟩ := commit_index_loop_preserves pending _ _ e2 hloop
    dsimp only
    rw [hd]
    exact append_log_db_suffix _ _

/-- Witness for claim C6: a single-entry batch on a fresh engine. -/
theorem claim_c6_commit_txn_finished_witness :
    (finish_log_db witness_engine.seq_no).encode <:+
        (commit witness_engine [([107], ⟨[107], [97], .NORMAL⟩)]
          ⟨10000, true⟩).engine.active_data ∧
    (finish_log_db witness_engine.seq_no).rec_type = .TXNFINISHED ∧
    (finish_log_db witness_engine.seq_no).value = [] ∧
    parse_log_db_key (finish_log_db witness_engine.seq_no).key =
      some (TXN_FIN_KEY, witness_engine.seq_no) ∧
    ∀ kv ∈ [(([107] : List Nat), (⟨[107], [97], .NORMAL⟩ : LogDb))],
      parse_log_db_key (log_db_key_with_seq kv.2.key witness_engine.seq_no) =
        some (kv.2.key, witness_engine.seq_no) :=
  claim_c6_commit_txn_finished witness_engine [([107], ⟨[107], [97], .NORMAL⟩)]
    ⟨10000, true⟩ (by decide) (by decide) (by decide)

/-- Claim C8: committing an empty batch returns success with the engine and
the staging map untouched (no append, no sequence number consumed, no index
change); committing a batch with more staged entries than max_batch_num
returns InvalidBatch before any append, with the engine untouched and the
staged entries still present. -/
theorem claim_c8_commit_guards (e : Engine) (pending : Pending)
    (options : WriteBatchOptions) :
    (pending = [] → commit e pending options = ⟨.ok (), e, pending⟩) ∧
    (pending.length > options.max_batch_num →
      commit e pending options = ⟨.error .InvalidBatch, e, pending⟩) := by
  constructor
  · intro h
    subst h
    rfl
  · intro h
    unfold commit
    rw [if_neg (by omega), if_pos h]

/-- Witness for claim C8: the empty batch and a one-entry batch against a
maximum of zero, on a fresh engine. -/
theorem claim_c8_commit_guards_witness :
    commit witness_engine [] ⟨10000, true⟩ = ⟨.ok (), witness_engine, []⟩ ∧
    commit witness_engine [([107], ⟨[107], [97], .NORMAL⟩)] ⟨0, true⟩ =
      ⟨.error .InvalidBatch, witness_engine,
        [([107], ⟨[107], [97], .NORMAL⟩)]⟩ :=
  ⟨(claim_c8_commit_guards witness_engine [] ⟨10000, true⟩).1 rfl,
    (claim_c8_commit_guards witness_engine [([107], ⟨[107], [97], .NORMAL⟩)]
      ⟨0, true⟩).2 (by decide)⟩

/-- `LiteDb::new_write_batch` guard as written in the source: it refuses
with InvalidBatch when the configured index type is `IndexType::BTree` (the
default in-memory ordered map), the sequence-number file was not seen at
open, and the database is not freshly initialised. -/
def new_write_batch (index_type : IndexType) (seq_file_exists : Bool)
    (is_initial : Bool) : Except ErrDb Unit :=
  if index_type = .BTree ∧ seq_file_exists = false ∧ is_initial = false then
    .error .InvalidBatch
  else .ok ()

/-- `LiteDb::open` sets the `seq_file_exists` flag only inside its
`IndexType::BPlusTree` branch (lines 148-158); for every other index type
the flag keeps its initial value `false`. -/
def open_seq_file_exists (index_type : IndexType) (seq_file_on_disk : Bool) :
    Bool :=
  decide (index_type = IndexType.BPlusTree) && seq_file_on_disk

/-- Claim C5 evaluated on the code: the guard in `new_write_batch` tests
`IndexType::BTree` — the in-memory default — instead of the persistent
B+ tree.  Consequently a B+ tree engine on a non-fresh directory without a
seq-no file is allowed to create batches (the claim and spec §9 say it must
be refused), while a default-index engine that reopens an existing
directory always gets InvalidBatch (its `seq_file_exists` flag can never be
set because `open` only sets it in the B+ tree branch), even though log
replay recovered the sequence counter. -/
theorem claim_c5_new_write_batch_divergence :
    new_write_batch .BPlusTree false false = .ok () ∧
    new_write_batch .BTree false false = .error .InvalidBatch ∧
    ∀ seq_file_on_disk : Bool,
      new_write_batch .BTree (open_seq_file_exists .BTree seq_file_on_disk)
        false = .error .InvalidBatch := by
  refine ⟨rfl, rfl, ?_⟩
  intro s
  cases s <;> rfl

/-- Claim C9: the three CRC-32 vectors over the record encodings, matching
the constants asserted by the source's own test
(`test_log_record_encode_and_crc`): key "name", value "bitcask-rs". -/
theorem claim_c9_crc_vectors :
    LogDb.get_crc ⟨[110, 97, 109, 101],
      [98, 105, 116, 99, 97, 115, 107, 45, 114, 115], .NORMAL⟩ = 1020360578 ∧
    LogDb.get_crc ⟨[110, 97, 109, 101], [], .NORMAL⟩ = 3756865478 ∧
    LogDb.get_crc ⟨[110, 97, 109, 101],
      [98, 105, 116, 99, 97, 115, 107, 45, 114, 115], .DELETED⟩ = 1867197446 := by
  refine ⟨?_, ?_, ?_⟩ <;> decide

/-- A buffered transactional record (`TransactionLogDb`): the record with
its key already stripped to the logical key, plus its position. -/
structure TransactionLogDb where
  log_db : LogDb
  pos : LogDbPos
deriving DecidableEq

/-- State threaded through `load_index_from_data_files`: the index under
construction, the reclaimable-size counter, the pending per-sequence
buffers (`transaction_log_dbs: HashMap<usize, Vec<TransactionLogDb>>`,
modelled as an association list with at most one entry per sequence) and
the running maximum sequence number (`current_seq_no`). -/
structure ScanState where
  index : Index
  reclaim_size : Nat
  pending_txns : List (Nat × List TransactionLogDb)
  current_seq_no : Nat
deriving DecidableEq

/-- `LiteDb::update_index`: NORMAL puts the position (counting a replaced
position's size as reclaimable); DELETED removes the key (counting both the
tombstone's own size and any removed old position's size); TXNFINISHED
records never reach this function and leave the state unchanged. -/
def update_index (st : ScanState) (key : List Nat) (rec_type : LogDbType)
    (pos : LogDbPos) : ScanState :=
  match rec_type with
  | .NORMAL =>
    let oldidx := idx_put st.index key pos
    { st with
        index := oldidx.2,
        reclaim_size := st.reclaim_size +
          (match oldidx.1 with
           | some op => op.size
           | none => 0) }
  | .DELETED =>
    let oldidx := idx_delete st.index key
    { st with
        index := oldidx.2,
        reclaim_size := st.reclaim_size + pos.size +
          (match oldidx.1 with
           | some op => op.size
           | none => 0) }
  | .TXNFINISHED => st

/-- HashMap `entry(seq).or_insert(Vec::new()).push(tr)`: append to the
sequence's buffer, creating it when absent. -/
def txns_push (m : List (Nat × List TransactionLogDb)) (seq : Nat)
    (tr : TransactionLogDb) : List (Nat × List TransactionLogDb) :=
  match m.lookup seq with
  | none => (seq, [tr]) :: m
  | some v => (seq, v ++ [tr]) :: m.eraseP (fun entry => entry.1 == seq)

/-- One record's effect during the recovery scan (the body of the loop in
`load_index_from_data_files` once the record has been read and its key
parsed): sequence 0 updates the index immediately; a TXNFINISHED record
drains and applies the pending buffer of its sequence — the source unwraps
the map lookup, so a missing buffer panics (`none`) — and every other
transactional record is buffered under its sequence; finally the maximum
observed sequence number is tracked. -/
def scan_step (st : ScanState) (log_db : LogDb) (real_key : List Nat)
    (seq_no : Nat) (pos : LogDbPos) : Option ScanState :=
  let step : Option ScanState :=
    if seq_no = NON_TRANSACTION_SEQ_NO then
      some (update_index st real_key log_db.rec_type pos)
    else if log_db.rec_type = .TXNFINISHED then
      match st.pending_txns.lookup seq_no with
      | none => none
      | some records =>
        let st2 := records.foldl
          (fun st tr => update_index st tr.log_db.key tr.log_db.rec_type tr.pos)
          st
        some { st2 with
                 pending_txns :=
                   st2.pending_txns.eraseP (fun entry => entry.1 == seq_no) }
    else
      some { st with
               pending_txns := txns_push st.pending_txns seq_no
                 ⟨{ log_db with key := real_key }, pos⟩ }
  match step with
  | none => none
  | some st2 =>
    some (if st2.current_seq_no < seq_no then
            { st2 with current_seq_no := seq_no }
          else st2)

/-- Outcome of the recovery scan: a Rust panic, an error returned to the
caller, or success with the final state and the offset reached in the last
scanned file (the value `set_write_off` stores). -/
inductive ScanOut
  | panic
  | err (e : ErrDb)
  | ok (st : ScanState) (offset : Nat)
deriving DecidableEq

/-- The per-file loop of `load_index_from_data_files`: read records at
increasing offsets until EOF (which is swallowed and ends the scan), return
any other error, and apply `scan_step` to each record.  The loop is
fuel-bounded; `data.length + 2` fuel always suffices because every
successful read advances the offset. -/
def scan_file (file_id : Nat) (data : List Nat) :
    Nat → Nat → ScanState → ScanOut
  | 0, _, _ => .panic
  | fuel + 1, offset, st =>
    match read_log_db data offset with
    | .error .IoEof => .ok st offset
    | .error .Panic => .panic
    | .error er => .err er
    | .ok rd =>
      match parse_log_db_key rd.log_db.key with
      | none => .panic
      | some (real_key, seq_no) =>
        let pos : LogDbPos := ⟨file_id, offset, rd.size % 2 ^ 32⟩
        match scan_step st rd.log_db real_key seq_no pos with
        | none => .panic
        | some st2 => scan_file file_id data fuel (offset + rd.size) st2

/-- `LiteDb::load_index_from_data_files` over the ascending list of data
files (file id and byte contents; the last one is the active segment):
files with id below `non_merge_fid` are skipped when the merge-finished
marker was found, each remaining file is scanned from offset 0 with the
state threaded through, and the offset reached in the last scanned file is
returned alongside the final state. -/
def load_index_from_data_files :
    List (Nat × List Nat) → Bool → Nat → ScanState → Nat → ScanOut
  | [], _, _, st, last_off => .ok st last_off
  | (fid, data) :: rest, has_merge, non_merge_fid, st, last_off =>
    if has_merge ∧ fid < non_merge_fid then
      load_index_from_data_files rest has_merge non_merge_fid st last_off
    else
      match scan_file fid data (data.length + 2) 0 st with
      | .panic => .panic
      | .err er => .err er
      | .ok st2 off =>
        load_index_from_data_files rest has_merge non_merge_fid st2 off

/-- The state at the start of recovery: empty index (no hint file), empty
buffers, `current_seq_no = NON_TRANSACTION_SEQ_NO`. -/
def initial_scan_state : ScanState := ⟨[], 0, [], NON_TRANSACTION_SEQ_NO⟩

/-- Recovery over a file set with no hint/merge artifacts. -/
def load_index (files : List (Nat × List Nat)) : ScanOut :=
  load_index_from_data_files files false 0 initial_scan_state 0

/-- The sequence counter established by `LiteDb::open` after replay: it is
initialised to 1 and overwritten with `current_seq_no + 1` when the replay
observed a positive sequence number. -/
def open_seq_no (current_seq_no : Nat) : Nat :=
  if 0 < current_seq_no then current_seq_no + 1 else 1

/-- The index produced by a successful recovery. -/
def ScanOut.index_of : ScanOut → Option Index
  | .ok st _ => some st.index
  | _ => none

/-- A log record described the way the write layer builds it: sequence
number, logical key, value and kind; `to_log_db` rebuilds the stored
record with the varint sequence prefix. -/
structure RecSpec where
  seq : Nat
  key : List Nat
  value : List Nat
  rec_type : LogDbType
deriving DecidableEq

def RecSpec.to_log_db (r : RecSpec) : LogDb :=
  ⟨log_db_key_with_seq r.key r.seq, r.value, r.rec_type⟩

def RecSpec.enc (r : RecSpec) : List Nat := r.to_log_db.encode

/-- Well-formedness of a written record: the sequence number is a `usize`,
the stored key and the value fit the header format, bytes are `u8`. -/
def WFRec (r : RecSpec) : Prop :=
  r.seq < 2 ^ 64 ∧
  (encode_varint r.seq).length + r.key.length < 2 ^ 35 ∧
  r.value.length < 2 ^ 35 ∧
  (∀ b ∈ r.key, b < 256) ∧ (∀ b ∈ r.value, b < 256)

instance (r : RecSpec) : Decidable (WFRec r) := by
  unfold WFRec
  infer_instance

/-- The bytes of a log holding the given records back to back. -/
def file_of (recs : List RecSpec) : List Nat :=
  (recs.map RecSpec.enc).flatten

/-- The positions the records occupy inside the file, starting at the given
offset. -/
def pos_list (fid : Nat) : Nat → List RecSpec → List LogDbPos
  | _, [] => []
  | ofs, r :: rest =>
    ⟨fid, ofs, r.enc.length % 2 ^ 32⟩ :: pos_list fid (ofs + r.enc.length) rest

/-- Record-level replay of the scan loop: apply `scan_step` to each record
together with its position; `none` is a panic. -/
def replay (st : ScanState) : List (RecSpec × LogDbPos) → Option ScanState
  | [] => some st
  | (r, pos) :: rest =>
    match scan_step st r.to_log_db r.key r.seq pos with
    | none => none
    | some st2 => replay st2 rest

/-- Claim C10: a recovery scan that meets a TXN_FINISHED record whose
sequence number has no previously buffered record panics (the source
unwraps the missing pending-map entry) instead of returning an error or
skipping the marker.  The witness log holds exactly one record: the batch
terminator for sequence 1 with no preceding batch records. -/
theorem claim_c10_orphan_txn_finished_panics :
    load_index [(0, file_of [⟨1, TXN_FIN_KEY, [], .TXNFINISHED⟩])] = .panic := by
  decide

/-- Counterexample to claim C6 as stated: the terminating record written by
`commit` (for sequence 1, say) does not have an empty logical key after the
sequence prefix — its logical key is the seven fixed bytes "txn-fin". -/
theorem claim_c6_empty_key_counterexample :
    parse_log_db_key (finish_log_db 1).key =
      some ([116, 120, 110, 45, 102, 105, 110], 1) ∧
    ([116, 120, 110, 45, 102, 105, 110] : List Nat) ≠ [] := by
  decide

theorem read_log_db_eof (data : List Nat) (offset : Nat)
    (h : data.drop offset = []) : read_log_db data offset = .error .IoEof := by
  simp only [read_log_db, h]
  rfl

theorem read_log_db_rec (r : RecSpec) (hwf : WFRec r) (data rest : List Nat)
    (offset : Nat) (hdrop : data.drop offset = r.enc ++ rest) :
    read_log_db data offset = .ok ⟨r.to_log_db, r.enc.length⟩ := by
  obtain ⟨h64, hk35, hv35, hkb, hvb⟩ := hwf
  apply read_log_db_encode _ _ rest _ hdrop
  · simp only [RecSpec.to_log_db, log_db_key_with_seq, List.length_append]
    omega
  · exact hv35
  · intro b hb
    simp only [RecSpec.to_log_db, log_db_key_with_seq, List.mem_append] at hb
    rcases hb with h | h
    · exact encode_varint_bytes_lt _ b h
    · exact hkb b h
  · exact hvb
  · intro ⟨hc, _⟩
    simp only [RecSpec.to_log_db, log_db_key_with_seq] at hc
    exact (encode_varint_fuel_ne_nil 10 r.seq) (List.append_eq_nil.mp hc).1

theorem file_of_nil : file_of [] = [] := rfl

theorem file_of_cons (r : RecSpec) (rest : List RecSpec) :
    file_of (r :: rest) = r.enc ++ file_of rest := by
  simp [file_of]

theorem enc_length_pos (r : RecSpec) : 0 < r.enc.length := by
  simp only [RecSpec.enc, LogDb.encode, List.length_append, put_u32_be_length]
  omega

theorem length_le_file_of : ∀ recs : List RecSpec,
    recs.length ≤ (file_of recs).length := by
  intro recs
  induction recs with
  | nil => simp [file_of]
  | cons r rest ih =>
    rw [file_of_cons]
    simp only [List.length_append, List.length_cons]
    have := enc_length_pos r
    omega

theorem scan_file_eq_replay (fid : Nat) (data : List Nat) :
    ∀ (recs : List RecSpec) (offset fuel : Nat) (st : ScanState),
      (∀ r ∈ recs, WFRec r) →
      data.drop offset = file_of recs →
      offset + (file_of recs).length = data.length →
      recs.length + 1 ≤ fuel →
      scan_file fid data fuel offset st =
        (match replay st (recs.zip (pos_list fid offset recs)) with
         | none => .panic
         | some st2 => .ok st2 data.length) := by
  intro recs
  induction recs with
  | nil =>
    intro offset fuel st _ hdrop hlen hfuel
    obtain ⟨f2, rfl⟩ : ∃ f2, fuel = f2 + 1 := ⟨fuel - 1, by omega⟩
    rw [scan_file, read_log_db_eof data offset (by simpa [file_of] using hdrop)]
    have hoff : offset = data.length := by
      simpa [file_of] using hlen
    rw [hoff]
    rfl
  | cons r rest ih =>
    intro offset fuel st hwf hdrop hlen hfuel
    obtain ⟨f2, rfl⟩ : ∃ f2, fuel = f2 + 1 := ⟨fuel - 1, by omega⟩
    rw [file_of_cons] at hdrop hlen
    have hr := read_log_db_rec r (hwf r (List.mem_cons_self _ _)) data
      (file_of rest) offset hdrop
    have hparse : parse_log_db_key r.to_log_db.key = some (r.key, r.seq) :=
      parse_log_db_key_with_seq (hwf r (List.mem_cons_self _ _)).1 _
    rw [scan_file, hr]
    dsimp only
    rw [hparse]
    dsimp only
    rw [pos_list, List.zip_cons_cons, replay]
    have hdrop2 : data.drop (offset + r.enc.length) = file_of rest := by
      rw [← List.drop_drop, hdrop, List.drop_left]
    cases hs : scan_step st r.to_log_db r.key r.seq
        ⟨fid, offset, r.enc.length % 2 ^ 32⟩ with
    | none => rfl
    | some st2 =>
      dsimp only
      rw [ih (offset + r.enc.length) f2 st2
        (fun x hx => hwf x (List.mem_cons_of_mem _ hx)) hdrop2
        (by simp only [List.length_append] at hlen ⊢; omega)
        (by simp only [List.length_cons] at hfuel; omega)]

theorem load_index_single (fid : Nat) (recs : List RecSpec)
    (hwf : ∀ r ∈ recs, WFRec r) :
    load_index [(fid, file_of recs)] =
      (match replay initial_scan_state (recs.zip (pos_list fid 0 recs)) with
       | none => ScanOut.panic
       | some st2 => .ok st2 (file_of recs).length) := by
  unfold load_index load_index_from_data_files
  rw [if_neg (by simp)]
  rw [scan_file_eq_replay fid (file_of recs) recs 0 ((file_of recs).length + 2)
    initial_scan_state hwf (by simp) (by simp)
    (by have := length_le_file_of recs; omega)]
  cases replay initial_scan_state (recs.zip (pos_list fid 0 recs)) with
  | none => rfl
  | some st2 => rfl

theorem update_index_pending (st : ScanState) (k : List Nat) (t : LogDbType)
    (p : LogDbPos) : (update_index st k t p).pending_txns = st.pending_txns := by
  cases t <;> rfl

theorem update_index_seq (st : ScanState) (k : List Nat) (t : LogDbType)
    (p : LogDbPos) :
    (update_index st k t p).current_seq_no = st.current_seq_no := by
  cases t <;> rfl

theorem foldl_update_index_seq :
    ∀ (records : List TransactionLogDb) (st : ScanState),
      (records.foldl
        (fun st tr => update_index st tr.log_db.key tr.log_db.rec_type tr.pos)
        st).current_seq_no = st.current_seq_no := by
  intro records
  induction records with
  | nil => intro st; rfl
  | cons tr rest ih =>
    intro st
    rw [List.foldl_cons, ih, update_index_seq]

theorem scan_step_seq_no {st : ScanState} {log_db : LogDb}
    {real_key : List Nat} {seq_no : Nat} {pos : LogDbPos} {st2 : ScanState}
    (h : scan_step st log_db real_key seq_no pos = some st2) :
    seq_no ≤ st2.current_seq_no ∧ st.current_seq_no ≤ st2.current_seq_no := by
  unfold scan_step at h
  split at h
  · rename_i h0
    dsimp only at h
    obtain rfl := Option.some.inj h
    rw [NON_TRANSACTION_SEQ_NO] at h0
    subst h0
    split
    · rename_i hlt
      constructor
      · simp
      · rw [update_index_seq] at hlt
        simp
        omega
    · rename_i hlt
      rw [update_index_seq]
      omega
  · split at h
    · rename_i hfin
      cases hl : st.pending_txns.lookup seq_no with
      | none =>
        rw [hl] at h
        exact absurd h (by simp)
      | some records =>
        rw [hl] at h
        dsimp only at h
        obtain rfl := Option.some.inj h
        split
        · rename_i hlt
          refine ⟨by simp, ?_⟩
          simp only [foldl_update_index_seq] at hlt ⊢
          omega
        · rename_i hlt
          simp only [foldl_update_index_seq] at hlt ⊢
          omega
    · dsimp only at h
      obtain rfl := Option.some.inj h
      split
      · rename_i hlt
        simp only at hlt ⊢
        omega
      · rename_i hlt
        simp only at hlt ⊢
        omega

theorem replay_seq_le : ∀ (l : List (RecSpec × LogDbPos)) (st st2 : ScanState),
    replay st l = some st2 →
    (∀ rp ∈ l, rp.1.seq ≤ st2.current_seq_no) ∧
      st.current_seq_no ≤ st2.current_seq_no := by
  intro l
  induction l with
  | nil =>
    intro st st2 h
    cases h
    exact ⟨by simp, Nat.le_refl _⟩
  | cons rp rest ih =>
    intro st st2 h
    obtain ⟨r, pos⟩ := rp
    rw [replay] at h
    cases hs : scan_step st r.to_log_db r.key r.seq pos with
    | none => rw [hs] at h; exact absurd h (by simp)
    | some st1 =>
      rw [hs] at h
      dsimp only at h
      obtain ⟨hrest, hmono⟩ := ih st1 st2 h
      obtain ⟨hseq, hst⟩ := scan_step_seq_no hs
      refine ⟨?_, by omega⟩
      intro rp2 hrp2
      rcases List.mem_cons.mp hrp2 with h2 | h2
      · subst h2
        show r.seq ≤ st2.current_seq_no
        omega
      · exact hrest rp2 h2

theorem pos_list_length (fid : Nat) :
    ∀ (ofs : Nat) (recs : List RecSpec),
      (pos_list fid ofs recs).length = recs.length := by
  intro ofs recs
  induction recs generalizing ofs with
  | nil => rfl
  | cons r rest ih =>
    rw [pos_list]
    simp only [List.length_cons, ih]

theorem commit_seq_no_inc (e : Engine) (pending : Pending)
    (options : WriteBatchOptions) (hne : pending.length ≠ 0)
    (hmax : ¬ pending.length > options.max_batch_num) :
    (commit e pending options).engine.seq_no = e.seq_no + 1 := by
  rw [commit_engine_eq e pending options hne hmax]
  dsimp only
  obtain ⟨_, _, _, _, _, _, hseq, _⟩ := append_log_db_spec
    (commit_append_loop e.seq_no pending ({ e with seq_no := e.seq_no + 1 }, [])).1
    (finish_log_db e.seq_no)
  have hloop := commit_append_loop_preserves e.seq_no pending
    { e with seq_no := e.seq_no + 1 } []
  split
  · dsimp only
    rw [hseq, hloop]
  · rename_i e2 hok
    obtain ⟨_, _, hs2⟩ := commit_index_loop_preserves pending _ _ e2 hok
    dsimp only
    rw [hs2, hseq, hloop]

/-- Claim C4: after recovery over the log, every sequence number observed
in the on-disk records is strictly below the next-sequence counter `open`
establishes (`current_seq_no + 1`, or 1 when nothing positive was seen);
and each successful batch commit advances the engine's sequence counter by
exactly one, so the sequence numbers handed to successive commits within
one process lifetime are strictly increasing. -/
theorem claim_c4_sequence_monotonic (fid : Nat) (recs : List RecSpec)
    (st2 : ScanState) (off : Nat) (hwf : ∀ r ∈ recs, WFRec r)
    (hload : load_index [(fid, file_of recs)] = .ok st2 off) :
    (∀ r ∈ recs, r.seq < open_seq_no st2.current_seq_no) ∧
    ∀ (e : Engine) (pending : Pending) (options : WriteBatchOptions),
      pending ≠ [] → pending.length ≤ options.max_batch_num →
      (commit e pending options).engine.seq_no = e.seq_no + 1 := by
  constructor
  · intro r hr
    rw [load_index_single fid recs hwf] at hload
    cases hrep : replay initial_scan_state (recs.zip (pos_list fid 0 recs)) with
    | none =>
      rw [hrep] at hload
      exact absurd hload (by simp)
    | some stx =>
      rw [hrep] at hload
      dsimp only at hload
      have hst : stx = st2 := by
        cases hload
        rfl
      subst hst
      have hmem : ∃ pos, (r, pos) ∈ recs.zip (pos_list fid 0 recs) := by
        have hmap : (recs.zip (pos_list fid 0 recs)).map Prod.fst = recs :=
          List.map_fst_zip recs _ (by rw [pos_list_length])
        have : r ∈ (recs.zip (pos_list fid 0 recs)).map Prod.fst := by
          rw [hmap]; exact hr
        obtain ⟨rp, hrp, hfst⟩ := List.mem_map.mp this
        refine ⟨rp.2, ?_⟩
        rw [← hfst]
        exact hrp
      obtain ⟨pos, hpos⟩ := hmem
      have hle : r.seq ≤ stx.current_seq_no :=
        (replay_seq_le _ _ _ hrep).1 (r, pos) hpos
      unfold open_seq_no
      split <;> omega
  · intro e pending options hne hmax
    exact commit_seq_no_inc e pending options
      (fun h0 => hne (List.length_eq_zero.mp h0)) (by omega)

/-- Witness for claim C4: a log holding one buffered (torn) record of
sequence 5; recovery reports `current_seq_no = 5`, so `open` would set the
counter to 6 and every observed sequence is below it. -/
theorem claim_c4_sequence_monotonic_witness :
    (∀ r ∈ [(⟨5, [107], [97], .NORMAL⟩ : RecSpec)],
      r.seq < open_seq_no
        (⟨[], 0, [(5, [⟨⟨[107], [97], .NORMAL⟩, ⟨0, 0, 10⟩⟩])],
          5⟩ : ScanState).current_seq_no) ∧
    ∀ (e : Engine) (pending : Pending) (options : WriteBatchOptions),
      pending ≠ [] → pending.length ≤ options.max_batch_num →
      (commit e pending options).engine.seq_no = e.seq_no + 1 :=
  claim_c4_sequence_monotonic 0 [⟨5, [107], [97], .NORMAL⟩]
    ⟨[], 0, [(5, [⟨⟨[107], [97], .NORMAL⟩, ⟨0, 0, 10⟩⟩])], 5⟩ 10
    (by decide) (by decide)

/-! Association-list lemmas for the pending-transactions map. -/

theorem lookup_cons_self {α : Type} (k : Nat) (v : α) (t : List (Nat × α)) :
    ((k, v) :: t).lookup k = some v := by
  rw [List.lookup_cons, beq_self_eq_true]

theorem lookup_cons_ne {α : Type} {k a : Nat} (v : α) (t : List (Nat × α))
    (h : a ≠ k) : ((k, v) :: t).lookup a = t.lookup a := by
  rw [List.lookup_cons, beq_false_of_ne h]

theorem lookup_eraseP_ne {α : Type} {s2 s : Nat} (h : s2 ≠ s) :
    ∀ m : List (Nat × α),
      (m.eraseP (fun e => e.1 == s)).lookup s2 = m.lookup s2 := by
  intro m
  induction m with
  | nil => rfl
  | cons kv t ih =>
    obtain ⟨k, v⟩ := kv
    rw [List.eraseP_cons]
    by_cases hk : k = s
    · subst hk
      simp only [beq_self_eq_true, cond_true]
      rw [lookup_cons_ne v t h]
    · simp only [show ((k, v).1 == s) = false by simpa using hk, cond_false]
      by_cases h2 : s2 = k
      · subst h2
        rw [lookup_cons_self, lookup_cons_self]
      · rw [lookup_cons_ne _ _ h2, lookup_cons_ne _ _ h2]
        exact ih

theorem filter_eraseP_comm {s s2 : Nat} (h : s2 ≠ s) :
    ∀ m : List (Nat × List TransactionLogDb),
      (m.eraseP (fun e => e.1 == s2)).filter (fun e => e.1 != s) =
        (m.filter (fun e => e.1 != s)).eraseP (fun e => e.1 == s2) := by
  intro m
  induction m with
  | nil => rfl
  | cons kv t ih =>
    obtain ⟨k, v⟩ := kv
    rw [List.eraseP_cons, List.filter_cons]
    by_cases hk : k = s2
    · subst hk
      simp only [beq_self_eq_true, cond_true]
      rw [if_pos (by simpa using h)]
      rw [List.eraseP_cons]
      simp only [beq_self_eq_true, cond_true]
    · simp only [show ((k, v).1 == s2) = false by simpa using hk, cond_false]
      by_cases hks : k = s
      · subst hks
        rw [if_neg (by simp), List.filter_cons, if_neg (by simp)]
        exact ih
      · rw [if_pos (by simpa using hks), List.filter_cons,
          if_pos (by simpa using hks), List.eraseP_cons]
        simp only [show ((k, v).1 == s2) = false by simpa using hk, cond_false]
        rw [ih]

theorem filter_eraseP_self (s : Nat) :
    ∀ m : List (Nat × List TransactionLogDb),
      (m.eraseP (fun e => e.1 == s)).filter (fun e => e.1 != s) =
        m.filter (fun e => e.1 != s) := by
  intro m
  induction m with
  | nil => rfl
  | cons kv t ih =>
    obtain ⟨k, v⟩ := kv
    rw [List.eraseP_cons]
    by_cases hk : k = s
    · subst hk
      simp only [beq_self_eq_true, cond_true]
      rw [List.filter_cons, if_neg (by simp)]
    · simp only [show ((k, v).1 == s) = false by simpa using hk, cond_false]
      rw [List.filter_cons, List.filter_cons, if_pos (by simpa using hk),
        if_pos (by simpa using hk), ih]

theorem lookup_filter_ne {s s2 : Nat} (h : s2 ≠ s) :
    ∀ m : List (Nat × List TransactionLogDb),
      (m.filter (fun e => e.1 != s)).lookup s2 = m.lookup s2 := by
  intro m
  induction m with
  | nil => rfl
  | cons kv t ih =>
    obtain ⟨k, v⟩ := kv
    rw [List.filter_cons]
    by_cases hk : k = s
    · subst hk
      rw [if_neg (by simp), lookup_cons_ne v t h]
      exact ih
    · rw [if_pos (by simpa using hk)]
      by_cases h2 : s2 = k
      · subst h2
        rw [lookup_cons_self, lookup_cons_self]
      · rw [lookup_cons_ne _ _ h2, lookup_cons_ne _ _ h2]
        exact ih

theorem txns_push_lookup_self (m : List (Nat × List TransactionLogDb))
    (s : Nat) (tr : TransactionLogDb) :
    (txns_push m s tr).lookup s = some ((m.lookup s).getD [] ++ [tr]) := by
  unfold txns_push
  cases hl : m.lookup s with
  | none => rw [lookup_cons_self]; rfl
  | some v => rw [lookup_cons_self]; rfl

theorem txns_push_lookup_ne (m : List (Nat × List TransactionLogDb))
    {s s2 : Nat} (tr : TransactionLogDb) (h : s2 ≠ s) :
    (txns_push m s tr).lookup s2 = m.lookup s2 := by
  unfold txns_push
  cases hl : m.lookup s with
  | none => rw [lookup_cons_ne _ _ h]
  | some v =>
    rw [lookup_cons_ne _ _ h]
    exact lookup_eraseP_ne h m

theorem filter_txns_push_self (m : List (Nat × List TransactionLogDb))
    (s : Nat) (tr : TransactionLogDb) :
    (txns_push m s tr).filter (fun e => e.1 != s) =
      m.filter (fun e => e.1 != s) := by
  unfold txns_push
  cases m.lookup s with
  | none => rw [List.filter_cons, if_neg (by simp)]
  | some v =>
    rw [List.filter_cons, if_neg (by simp)]
    exact filter_eraseP_self s m

theorem txns_push_filter_comm (m : List (Nat × List TransactionLogDb))
    {s s2 : Nat} (tr : TransactionLogDb) (h : s2 ≠ s) :
    txns_push (m.filter (fun e => e.1 != s)) s2 tr =
      (txns_push m s2 tr).filter (fun e => e.1 != s) := by
  unfold txns_push
  rw [lookup_filter_ne h]
  cases m.lookup s2 with
  | none =>
    rw [List.filter_cons, if_pos (by simpa using h)]
  | some v =>
    rw [List.filter_cons, if_pos (by simpa using h), filter_eraseP_comm h]

theorem update_index_index_eq {a b : ScanState} (h : a.index = b.index)
    (k : List Nat) (t : LogDbType) (p : LogDbPos) :
    (update_index a k t p).index = (update_index b k t p).index := by
  cases t <;> simp [update_index, idx_put, idx_delete, h]

theorem foldl_update_index_eq :
    ∀ (records : List TransactionLogDb) {a b : ScanState}, a.index = b.index →
      (records.foldl
        (fun st tr => update_index st tr.log_db.key tr.log_db.rec_type tr.pos)
        a).index =
      (records.foldl
        (fun st tr => update_index st tr.log_db.key tr.log_db.rec_type tr.pos)
        b).index := by
  intro records
  induction records with
  | nil => intro a b h; exact h
  | cons tr rest ih =>
    intro a b h
    rw [List.foldl_cons, List.foldl_cons]
    exact ih (update_index_index_eq h _ _ _)

theorem foldl_update_pending :
    ∀ (records : List TransactionLogDb) (st : ScanState),
      (records.foldl
        (fun st tr => update_index st tr.log_db.key tr.log_db.rec_type tr.pos)
        st).pending_txns = st.pending_txns := by
  intro records
  induction records with
  | nil => intro st; rfl
  | cons tr rest ih =>
    intro st
    rw [List.foldl_cons, ih, update_index_pending]

/-- The scan state after buffering one transactional record (the third
branch of the loop body). -/
def buffered (st : ScanState) (log_db : LogDb) (real_key : List Nat)
    (seq_no : Nat) (pos : LogDbPos) : ScanState :=
  { st with
      pending_txns :=
        txns_push st.pending_txns seq_no
          (TransactionLogDb.mk { log_db with key := real_key } pos) }

/-- The scan state after draining a finished batch's buffer: apply each
buffered record to the index and delete the pending entry. -/
def drained (st : ScanState) (records : List TransactionLogDb)
    (seq_no : Nat) : ScanState :=
  let st2 := records.foldl
    (fun st tr => update_index st tr.log_db.key tr.log_db.rec_type tr.pos) st
  { st2 with
      pending_txns := st2.pending_txns.eraseP (fun entry => entry.1 == seq_no) }

/-- Tracking of the maximum observed sequence number. -/
def max_seq_upd (st : ScanState) (seq_no : Nat) : ScanState :=
  if st.current_seq_no < seq_no then { st with current_seq_no := seq_no }
  else st

theorem scan_step_seq0 (st : ScanState) (log_db : LogDb) (real_key : List Nat)
    (pos : LogDbPos) :
    scan_step st log_db real_key 0 pos =
      some (update_index st real_key log_db.rec_type pos) := by
  unfold scan_step
  rw [if_pos (show (0 : Nat) = NON_TRANSACTION_SEQ_NO from rfl)]
  dsimp only
  rw [if_neg (Nat.not_lt_zero _)]

theorem scan_step_buffer (st : ScanState) (log_db : LogDb)
    (real_key : List Nat) {seq_no : Nat} (pos : LogDbPos) (hs : seq_no ≠ 0)
    (hfin : log_db.rec_type ≠ .TXNFINISHED) :
    scan_step st log_db real_key seq_no pos =
      some (max_seq_upd (buffered st log_db real_key seq_no pos) seq_no) := by
  unfold scan_step max_seq_upd buffered
  rw [if_neg (by simpa [NON_TRANSACTION_SEQ_NO] using hs), if_neg hfin]

theorem scan_step_fin (st : ScanState) (log_db : LogDb) (real_key : List Nat)
    {seq_no : Nat} (pos : LogDbPos) (hs : seq_no ≠ 0)
    (hfin : log_db.rec_type = .TXNFINISHED) :
    scan_step st log_db real_key seq_no pos =
      (match st.pending_txns.lookup seq_no with
       | none => none
       | some records => some (max_seq_upd (drained st records seq_no) seq_no)) := by
  unfold scan_step max_seq_upd drained
  rw [if_neg (by simpa [NON_TRANSACTION_SEQ_NO] using hs), if_pos hfin]
  cases st.pending_txns.lookup seq_no <;> rfl

/-- Relation between a recovery state and the state of a reference run from
which every record of batch `s` has been erased: the indexes agree, and the
reference run's pending buffers are the real run's buffers minus the
sequence-`s` entry. -/
def erased_rel (s : Nat) (a b : ScanState) : Prop :=
  a.index = b.index ∧
    b.pending_txns = a.pending_txns.filter (fun e => e.1 != s)

theorem erased_rel_max {s n : Nat} {x y : ScanState} (h : erased_rel s x y) :
    erased_rel s (max_seq_upd x n) (max_seq_upd y n) := by
  obtain ⟨h1, h2⟩ := h
  unfold max_seq_upd
  split <;> split <;> exact ⟨h1, h2⟩

theorem erased_rel_max_left {s n : Nat} {x y : ScanState}
    (h : erased_rel s x y) : erased_rel s (max_seq_upd x n) y := by
  obtain ⟨h1, h2⟩ := h
  unfold max_seq_upd
  split <;> exact ⟨h1, h2⟩

theorem scan_step_erased {s : Nat} {a b : ScanState}
    (hab : erased_rel s a b) (log_db : LogDb) (real_key : List Nat)
    {seq_no : Nat} (pos : LogDbPos) (hne : seq_no ≠ s) :
    (scan_step a log_db real_key seq_no pos = none ∧
      scan_step b log_db real_key seq_no pos = none) ∨
    ∃ a2 b2, scan_step a log_db real_key seq_no pos = some a2 ∧
      scan_step b log_db real_key seq_no pos = some b2 ∧ erased_rel s a2 b2 := by
  obtain ⟨hidx, hpend⟩ := hab
  by_cases h0 : seq_no = 0
  · subst h0
    right
    rw [scan_step_seq0, scan_step_seq0]
    refine ⟨_, _, rfl, rfl, update_index_index_eq hidx _ _ _, ?_⟩
    rw [update_index_pending, update_index_pending]
    exact hpend
  · by_cases hf : log_db.rec_type = .TXNFINISHED
    · rw [scan_step_fin a log_db real_key pos h0 hf,
        scan_step_fin b log_db real_key pos h0 hf]
      have hlk : b.pending_txns.lookup seq_no = a.pending_txns.lookup seq_no := by
        rw [hpend, lookup_filter_ne hne]
      rw [hlk]
      cases hl : a.pending_txns.lookup seq_no with
      | none => left; exact ⟨rfl, rfl⟩
      | some records =>
        right
        dsimp only
        refine ⟨_, _, rfl, rfl, ?_⟩
        have hrel3 : erased_rel s (drained a records seq_no)
            (drained b records seq_no) := by
          constructor
          · exact foldl_update_index_eq records hidx
          · unfold drained
            dsimp only
            rw [foldl_update_pending, foldl_update_pending, hpend,
              filter_eraseP_comm hne]
        exact erased_rel_max hrel3
    · rw [scan_step_buffer a log_db real_key pos h0 hf,
        scan_step_buffer b log_db real_key pos h0 hf]
      right
      refine ⟨_, _, rfl, rfl, ?_⟩
      have hrel2 : erased_rel s (buffered a log_db real_key seq_no pos)
          (buffered b log_db real_key seq_no pos) := by
        constructor
        · exact hidx
        · unfold buffered
          dsimp only
          rw [hpend, txns_push_filter_comm _ _ hne]
      exact erased_rel_max hrel2

theorem scan_step_erased_skip {s : Nat} (hs : s ≠ 0) {a b : ScanState}
    (hab : erased_rel s a b) (log_db : LogDb) (real_key : List Nat)
    (pos : LogDbPos) (hfin : log_db.rec_type ≠ .TXNFINISHED) :
    ∃ a2, scan_step a log_db real_key s pos = some a2 ∧ erased_rel s a2 b := by
  obtain ⟨hidx, hpend⟩ := hab
  rw [scan_step_buffer a log_db real_key pos hs hfin]
  have hrel2 : erased_rel s (buffered a log_db real_key s pos) b := by
    constructor
    · exact hidx
    · unfold buffered
      dsimp only
      rw [filter_txns_push_self]
      exact hpend
  exact ⟨_, rfl, erased_rel_max_left hrel2⟩

theorem replay_erased {s : Nat} (hs : s ≠ 0) :
    ∀ (l : List (RecSpec × LogDbPos)) (a b : ScanState),
      (∀ rp ∈ l, rp.1.seq = s → rp.1.rec_type ≠ .TXNFINISHED) →
      erased_rel s a b →
      (replay a l = none ∧
        replay b (l.filter (fun rp => rp.1.seq != s)) = none) ∨
      ∃ a2 b2, replay a l = some a2 ∧
        replay b (l.filter (fun rp => rp.1.seq != s)) = some b2 ∧
        erased_rel s a2 b2 := by
  intro l
  induction l with
  | nil =>
    intro a b _ hab
    right
    exact ⟨a, b, rfl, rfl, hab⟩
  | cons rp rest ih =>
    intro a b hnofin hab
    obtain ⟨r, pos⟩ := rp
    by_cases hrs : r.seq = s
    · have hfilter : ((r, pos) :: rest).filter (fun rp => rp.1.seq != s) =
          rest.filter (fun rp => rp.1.seq != s) := by
        rw [List.filter_cons, if_neg (by simpa using hrs)]
      obtain ⟨a2, hstep, hrel⟩ := scan_step_erased_skip hs hab r.to_log_db r.key
        pos (hnofin (r, pos) (List.mem_cons_self _ _) hrs)
      rw [replay, hfilter, hrs, hstep]
      exact ih a2 b (fun x hx hxs => hnofin x (List.mem_cons_of_mem _ hx) hxs)
        hrel
    · have hfilter : ((r, pos) :: rest).filter (fun rp => rp.1.seq != s) =
          (r, pos) :: rest.filter (fun rp => rp.1.seq != s) := by
        rw [List.filter_cons, if_pos (by simpa using hrs)]
      rcases scan_step_erased hab r.to_log_db r.key pos hrs with
        ⟨hna, hnb⟩ | ⟨a2, b2, hsa, hsb, hrel⟩
      · left
        constructor
        · rw [replay, hna]
        · rw [hfilter, replay, hnb]
      · rw [replay, hsa, hfilter, replay, hsb]
        exact ih a2 b2 (fun x hx hxs => hnofin x (List.mem_cons_of_mem _ hx) hxs)
          hrel
/-- Direct application of a list of records (with their positions) to the
index, the way non-transactional records and drained batch records reach
`update_index`. -/
def apply_recs (st : ScanState) (l : List (RecSpec × LogDbPos)) : ScanState :=
  l.foldl (fun st rp => update_index st rp.1.key rp.1.rec_type rp.2) st

theorem apply_recs_append (st : ScanState) (l1 l2 : List (RecSpec × LogDbPos)) :
    apply_recs st (l1 ++ l2) = apply_recs (apply_recs st l1) l2 := by
  unfold apply_recs
  rw [List.foldl_append]

theorem apply_recs_index_eq :
    ∀ (l : List (RecSpec × LogDbPos)) {a b : ScanState}, a.index = b.index →
      (apply_recs a l).index = (apply_recs b l).index := by
  intro l
  induction l with
  | nil => intro a b h; exact h
  | cons rp rest ih =>
    intro a b h
    unfold apply_recs
    rw [List.foldl_cons, List.foldl_cons]
    exact ih (update_index_index_eq h _ _ _)

theorem apply_recs_pending :
    ∀ (l : List (RecSpec × LogDbPos)) (st : ScanState),
      (apply_recs st l).pending_txns = st.pending_txns := by
  intro l
  induction l with
  | nil => intro st; rfl
  | cons rp rest ih =>
    intro st
    unfold apply_recs
    rw [List.foldl_cons]
    exact (ih _).trans (update_index_pending _ _ _ _)

theorem max_seq_upd_index (st : ScanState) (n : Nat) :
    (max_seq_upd st n).index = st.index := by
  unfold max_seq_upd
  split <;> rfl

theorem max_seq_upd_pending (st : ScanState) (n : Nat) :
    (max_seq_upd st n).pending_txns = st.pending_txns := by
  unfold max_seq_upd
  split <;> rfl

theorem buffered_index (st : ScanState) (log_db : LogDb) (real_key : List Nat)
    (seq_no : Nat) (pos : LogDbPos) :
    (buffered st log_db real_key seq_no pos).index = st.index := rfl

theorem replay_append (l1 l2 : List (RecSpec × LogDbPos)) :
    ∀ st : ScanState,
      replay st (l1 ++ l2) =
        (match replay st l1 with
         | none => none
         | some st2 => replay st2 l2) := by
  induction l1 with
  | nil => intro st; rfl
  | cons rp rest ih =>
    intro st
    obtain ⟨r, pos⟩ := rp
    rw [List.cons_append, replay, replay]
    cases scan_step st r.to_log_db r.key r.seq pos with
    | none => rfl
    | some st2 =>
      dsimp only
      exact ih st2

theorem replay_seq0 :
    ∀ (l : List (RecSpec × LogDbPos)), (∀ rp ∈ l, rp.1.seq = 0) →
      ∀ st : ScanState, replay st l = some (apply_recs st l) := by
  intro l
  induction l with
  | nil => intro _ st; rfl
  | cons rp rest ih =>
    intro h0 st
    obtain ⟨r, pos⟩ := rp
    rw [replay, h0 (r, pos) (List.mem_cons_self _ _), scan_step_seq0]
    dsimp only
    rw [ih (fun x hx => h0 x (List.mem_cons_of_mem _ hx))]
    rfl

/-- The pending-buffer entry the scan builds for a staged record. -/
def to_txn (rp : RecSpec × LogDbPos) : TransactionLogDb :=
  ⟨⟨rp.1.key, rp.1.value, rp.1.rec_type⟩, rp.2⟩

theorem replay_batch_aux {s : Nat} (hs : s ≠ 0) :
    ∀ (l : List (RecSpec × LogDbPos)) (st : ScanState)
      (acc : List TransactionLogDb),
      (∀ rp ∈ l, rp.1.seq = s ∧ rp.1.rec_type ≠ .TXNFINISHED) →
      st.pending_txns.lookup s = some acc →
      ∃ st2, replay st l = some st2 ∧ st2.index = st.index ∧
        st2.pending_txns.lookup s = some (acc ++ l.map to_txn) := by
  intro l
  induction l with
  | nil =>
    intro st acc _ hacc
    exact ⟨st, rfl, rfl, by simpa using hacc⟩
  | cons rp rest ih =>
    intro st acc hall hacc
    obtain ⟨r, pos⟩ := rp
    obtain ⟨hseq, hnf⟩ := hall (r, pos) (List.mem_cons_self _ _)
    rw [replay, hseq,
      scan_step_buffer st r.to_log_db r.key pos hs hnf]
    dsimp only
    obtain ⟨st2, hrep, hidx, hlook⟩ := ih
      (max_seq_upd (buffered st r.to_log_db r.key s pos) s)
      (acc ++ [to_txn (r, pos)])
      (fun x hx => hall x (List.mem_cons_of_mem _ hx))
      (by
        rw [max_seq_upd_pending]
        unfold buffered
        dsimp only
        rw [txns_push_lookup_self, hacc]
        rfl)
    refine ⟨st2, hrep, ?_, ?_⟩
    · rw [hidx, max_seq_upd_index, buffered_index]
    · rw [hlook, List.map_cons, List.append_assoc, List.singleton_append]
theorem replay_batch {s : Nat} (hs : s ≠ 0) (l : List (RecSpec × LogDbPos))
    (hne : l ≠ []) (st : ScanState)
    (hall : ∀ rp ∈ l, rp.1.seq = s ∧ rp.1.rec_type ≠ .TXNFINISHED)
    (hnone : st.pending_txns.lookup s = none) :
    ∃ st2, replay st l = some st2 ∧ st2.index = st.index ∧
      st2.pending_txns.lookup s = some (l.map to_txn) := by
  cases l with
  | nil => exact absurd rfl hne
  | cons rp rest =>
    obtain ⟨r, pos⟩ := rp
    obtain ⟨hseq, hnf⟩ := hall (r, pos) (List.mem_cons_self _ _)
    rw [replay, hseq,
      scan_step_buffer st r.to_log_db r.key pos hs hnf]
    dsimp only
    obtain ⟨st2, hrep, hidx, hlook⟩ := replay_batch_aux hs rest
      (max_seq_upd (buffered st r.to_log_db r.key s pos) s)
      [to_txn (r, pos)]
      (fun x hx => hall x (List.mem_cons_of_mem _ hx))
      (by
        rw [max_seq_upd_pending]
        unfold buffered
        dsimp only
        rw [txns_push_lookup_self, hnone]
        rfl)
    refine ⟨st2, hrep, ?_, ?_⟩
    · rw [hidx, max_seq_upd_index, buffered_index]
    · rw [hlook, List.map_cons, List.singleton_append]

/-- The terminating record `commit` appends for sequence `s`, described as
a `RecSpec`: the fixed marker key, an empty value, kind TXNFINISHED. -/
def fin_rec (s : Nat) : RecSpec := ⟨s, TXN_FIN_KEY, [], .TXNFINISHED⟩

theorem replay_fin_cons {s : Nat} (hs : s ≠ 0) (pos : LogDbPos)
    (rest : List (RecSpec × LogDbPos)) (st : ScanState)
    (trs : List TransactionLogDb)
    (hl : st.pending_txns.lookup s = some trs) :
    replay st ((fin_rec s, pos) :: rest) =
      replay (max_seq_upd (drained st trs s) s) rest := by
  rw [replay]
  simp only [show (fin_rec s).seq = s from rfl,
    show (fin_rec s).key = TXN_FIN_KEY from rfl]
  rw [scan_step_fin st _ _ pos hs rfl, hl]

theorem drained_index (st : ScanState) (l : List (RecSpec × LogDbPos))
    (s : Nat) :
    (drained st (l.map to_txn) s).index = (apply_recs st l).index := by
  unfold drained apply_recs
  dsimp only
  rw [List.foldl_map]
  rfl

theorem file_of_append (l1 l2 : List RecSpec) :
    file_of (l1 ++ l2) = file_of l1 ++ file_of l2 := by
  simp [file_of]

theorem pos_list_append (fid : Nat) :
    ∀ (l1 l2 : List RecSpec) (off : Nat),
      pos_list fid off (l1 ++ l2) =
        pos_list fid off l1 ++ pos_list fid (off + (file_of l1).length) l2 := by
  intro l1
  induction l1 with
  | nil =>
    intro l2 off
    simp [pos_list, file_of]
  | cons r rest ih =>
    intro l2 off
    rw [List.cons_append, pos_list, pos_list, ih, List.cons_append]
    have hoff : off + r.enc.length + (file_of rest).length =
        off + (file_of (r :: rest)).length := by
      rw [file_of_cons, List.length_append]
      omega
    rw [hoff]
/-- Claim C1: batch atomicity of recovery.  First conjunct (torn batch): if
the log holds no TXN_FINISHED record for sequence `s`, a recovery that
succeeds builds exactly the index of a replay from which every sequence-`s`
record has been removed — none of the torn batch's records is ever applied
to the index.  Second conjunct (committed batch): a log of
non-transactional records surrounding a complete batch — its staged
sequence-`s` records followed by the sequence-`s` TXN_FINISHED marker —
recovers without error, and the resulting index is the direct in-order
application of the surrounding records and of every one of the batch's
records at their logged positions, the marker itself contributing nothing:
all the batch's effects are visible. -/
theorem claim_c1_batch_recovery_atomicity :
    (∀ (fid s : Nat) (recs : List RecSpec) (st : ScanState) (off : Nat),
      s ≠ 0 →
      (∀ r ∈ recs, WFRec r) →
      (∀ r ∈ recs, r.seq = s → r.rec_type ≠ .TXNFINISHED) →
      load_index [(fid, file_of recs)] = .ok st off →
      ∃ st2, replay initial_scan_state
          ((recs.zip (pos_list fid 0 recs)).filter
            (fun rp => rp.1.seq != s)) = some st2 ∧
        st.index = st2.index) ∧
    (∀ (fid s : Nat) (pre batch post : List RecSpec),
      s ≠ 0 → s < 2 ^ 64 → batch ≠ [] →
      (∀ r ∈ pre, WFRec r ∧ r.seq = 0) →
      (∀ r ∈ batch, WFRec r ∧ r.seq = s ∧ r.rec_type ≠ .TXNFINISHED) →
      (∀ r ∈ post, WFRec r ∧ r.seq = 0) →
      ∃ st2,
        load_index [(fid, file_of (pre ++ batch ++ fin_rec s :: post))] =
          .ok st2 (file_of (pre ++ batch ++ fin_rec s :: post)).length ∧
        st2.index =
          (apply_recs initial_scan_state
            (pre.zip (pos_list fid 0 pre) ++
             batch.zip (pos_list fid (file_of pre).length batch) ++
             post.zip (pos_list fid
               ((file_of pre).length + (file_of batch).length +
                 (fin_rec s).enc.length) post))).index) := by
  constructor
  · intro fid s recs st off hs hwf hnofin hload
    rw [load_index_single fid recs hwf] at hload
    cases hrep : replay initial_scan_state (recs.zip (pos_list fid 0 recs)) with
    | none =>
      rw [hrep] at hload
      exact absurd hload (by simp)
    | some stA =>
      rw [hrep] at hload
      dsimp only at hload
      have hst : stA = st := by cases hload; rfl
      subst hst
      rcases replay_erased hs (recs.zip (pos_list fid 0 recs))
          initial_scan_state initial_scan_state
          (by
            rintro ⟨r, p⟩ hrp hrps
            exact hnofin r (List.of_mem_zip hrp).1 hrps)
          ⟨rfl, rfl⟩ with
        ⟨hna, _⟩ | ⟨a2, b2, ha, hb, hrel⟩
      · rw [hrep] at hna
        exact absurd hna (by simp)
      · rw [hrep] at ha
        have ha2 : stA = a2 := by cases ha; rfl
        subst ha2
        exact ⟨b2, hb, hrel.1⟩
  · intro fid s pre batch post hs hs64 hbne hpre hbatch hpost
    have hwfin : WFRec (fin_rec s) := by
      have h10 : (encode_varint s).length ≤ 10 :=
        encode_varint_length_le (by norm_num) (lt_trans hs64 (by norm_num))
      refine ⟨hs64, ?_, ?_, ?_, ?_⟩
      · show (encode_varint s).length + TXN_FIN_KEY.length < 2 ^ 35
        have h7 : TXN_FIN_KEY.length = 7 := rfl
        have h35 : (2 : Nat) ^ 35 = 34359738368 := by norm_num
        omega
      · show ([] : List Nat).length < 2 ^ 35
        norm_num
      · show ∀ b ∈ TXN_FIN_KEY, b < 256
        decide
      · show ∀ b ∈ ([] : List Nat), b < 256
        decide
    have hwfall : ∀ r ∈ pre ++ batch ++ fin_rec s :: post, WFRec r := by
      intro r hr
      rcases List.mem_append.mp hr with h | h
      · rcases List.mem_append.mp h with h2 | h2
        · exact (hpre r h2).1
        · exact (hbatch r h2).1
      · rcases List.mem_cons.mp h with h3 | h3
        · exact h3 ▸ hwfin
        · exact (hpost r h3).1
    have hlen1 : pre.length = (pos_list fid 0 pre).length :=
      (pos_list_length fid 0 pre).symm
    have hlen2 : batch.length =
        (pos_list fid (file_of pre).length batch).length :=
      (pos_list_length fid (file_of pre).length batch).symm
    have hlenpb : (pre ++ batch).length =
        (pos_list fid 0 pre ++ pos_list fid (file_of pre).length batch).length := by
      rw [List.length_append, List.length_append, pos_list_length,
        pos_list_length]
    have hpairs :
        (pre ++ batch ++ fin_rec s :: post).zip
          (pos_list fid 0 (pre ++ batch ++ fin_rec s :: post)) =
        pre.zip (pos_list fid 0 pre) ++
          (batch.zip (pos_list fid (file_of pre).length batch) ++
            (fin_rec s, ⟨fid, (file_of pre).length + (file_of batch).length,
              (fin_rec s).enc.length % 2 ^ 32⟩) ::
              post.zip (pos_list fid
                ((file_of pre).length + (file_of batch).length +
                  (fin_rec s).enc.length) post)) := by
      rw [pos_list_append fid (pre ++ batch) (fin_rec s :: post) 0,
        pos_list_append fid pre batch 0, pos_list]
      simp only [Nat.zero_add, file_of_append, List.length_append]
      rw [List.zip_append hlenpb, List.zip_append hlen1, List.zip_cons_cons,
        List.append_assoc]
    have hpre0 : ∀ rp ∈ pre.zip (pos_list fid 0 pre), rp.1.seq = 0 := by
      rintro ⟨r, p⟩ hrp
      exact (hpre r (List.of_mem_zip hrp).1).2
    have hpost0 : ∀ rp ∈ post.zip (pos_list fid
        ((file_of pre).length + (file_of batch).length +
          (fin_rec s).enc.length) post), rp.1.seq = 0 := by
      rintro ⟨r, p⟩ hrp
      exact (hpost r (List.of_mem_zip hrp).1).2
    have hball : ∀ rp ∈ batch.zip (pos_list fid (file_of pre).length batch),
        rp.1.seq = s ∧ rp.1.rec_type ≠ .TXNFINISHED := by
      rintro ⟨r, p⟩ hrp
      exact ⟨(hbatch r (List.of_mem_zip hrp).1).2.1,
        (hbatch r (List.of_mem_zip hrp).1).2.2⟩
    have hbpne : batch.zip (pos_list fid (file_of pre).length batch) ≠ [] := by
      intro hnil
      apply hbne
      have hl := congrArg List.length hnil
      rw [List.length_zip, ← hlen2, Nat.min_self, List.length_nil] at hl
      exact List.length_eq_zero.mp hl
    have hst1p : (apply_recs initial_scan_state
        (pre.zip (pos_list fid 0 pre))).pending_txns.lookup s = none := by
      rw [apply_recs_pending]
      rfl
    obtain ⟨stB, hB, hBidx, hBlook⟩ := replay_batch hs
      (batch.zip (pos_list fid (file_of pre).length batch)) hbpne
      (apply_recs initial_scan_state (pre.zip (pos_list fid 0 pre)))
      hball hst1p
    have hrep : replay initial_scan_state
        ((pre ++ batch ++ fin_rec s :: post).zip
          (pos_list fid 0 (pre ++ batch ++ fin_rec s :: post))) =
        some (apply_recs
          (max_seq_upd (drained stB
            ((batch.zip (pos_list fid (file_of pre).length batch)).map to_txn)
            s) s)
          (post.zip (pos_list fid
            ((file_of pre).length + (file_of batch).length +
              (fin_rec s).enc.length) post))) := by
      rw [hpairs, replay_append, replay_seq0 _ hpre0]
      dsimp only
      rw [replay_append, hB]
      dsimp only
      rw [replay_fin_cons hs _ _ _ _ hBlook]
      rw [replay_seq0 _ hpost0]
    refine ⟨apply_recs
      (max_seq_upd (drained stB
        ((batch.zip (pos_list fid (file_of pre).length batch)).map to_txn)
        s) s)
      (post.zip (pos_list fid
        ((file_of pre).length + (file_of batch).length +
          (fin_rec s).enc.length) post)), ?_, ?_⟩
    · rw [load_index_single fid _ hwfall, hrep]
    · have hD : (max_seq_upd (drained stB
          ((batch.zip (pos_list fid (file_of pre).length batch)).map to_txn)
          s) s).index =
          (apply_recs (apply_recs initial_scan_state
            (pre.zip (pos_list fid 0 pre)))
            (batch.zip (pos_list fid (file_of pre).length batch))).index := by
        rw [max_seq_upd_index, drained_index]
        exact apply_recs_index_eq _ hBidx
      rw [apply_recs_index_eq _ hD, apply_recs_append, apply_recs_append]
/-- Witness for claim C1 at concrete inputs.  Torn batch: a log holding the
single staged record of sequence 1 (key `k`, value `a`) and no terminator
recovers to a state whose index matches the replay with that record
filtered out (both indexes are empty).  Committed batch: the one-record
batch followed by its sequence-1 TXN_FINISHED marker recovers with the
record's put visible in the index. -/
theorem claim_c1_batch_recovery_atomicity_witness :
    (∃ st2, replay initial_scan_state
        ((([⟨1, [107], [97], .NORMAL⟩] : List RecSpec).zip
          (pos_list 0 0 ([⟨1, [107], [97], .NORMAL⟩] : List RecSpec))).filter
            (fun rp => rp.1.seq != 1)) = some st2 ∧
      (⟨[], 0, [(1, [⟨⟨[107], [97], .NORMAL⟩, ⟨0, 0, 10⟩⟩])], 1⟩ :
        ScanState).index = st2.index) ∧
    (∃ st2,
      load_index [(0, file_of (([] : List RecSpec) ++
          ([⟨1, [107], [97], .NORMAL⟩] : List RecSpec) ++ fin_rec 1 :: []))] =
        .ok st2 (file_of (([] : List RecSpec) ++
          ([⟨1, [107], [97], .NORMAL⟩] : List RecSpec) ++
            fin_rec 1 :: [])).length ∧
      st2.index =
        (apply_recs initial_scan_state
          (([] : List RecSpec).zip (pos_list 0 0 ([] : List RecSpec)) ++
           ([⟨1, [107], [97], .NORMAL⟩] : List RecSpec).zip
             (pos_list 0 (file_of ([] : List RecSpec)).length
               ([⟨1, [107], [97], .NORMAL⟩] : List RecSpec)) ++
           ([] : List RecSpec).zip (pos_list 0
             ((file_of ([] : List RecSpec)).length +
               (file_of ([⟨1, [107], [97], .NORMAL⟩] : List RecSpec)).length +
                 (fin_rec 1).enc.length) ([] : List RecSpec)))).index) :=
  And.intro
    (claim_c1_batch_recovery_atomicity.1 0 1
      ([⟨1, [107], [97], .NORMAL⟩] : List RecSpec)
      ⟨[], 0, [(1, [⟨⟨[107], [97], .NORMAL⟩, ⟨0, 0, 10⟩⟩])], 1⟩ 10
      (by decide) (by decide) (by decide) (by decide))
    (claim_c1_batch_recovery_atomicity.2 0 1 []
      ([⟨1, [107], [97], .NORMAL⟩] : List RecSpec) []
      (by decide) (by decide) (by decide) (by decide) (by decide) (by decide))
